import Mathlib

/-!
Verification development for the cutechess PGN codec
(`projects/lib/src/pgngame.cpp`): the item scanner `PgnGame::readItem`,
the stream-parsing constructor `PgnGame::PgnGame(PgnFile&, int)`, and the
writer `PgnGame::write`.

Strings are modelled as `List Char` (QString is a sequence of QChars).
The chess rules engine (`Chess::Board`, `Chess::Variant`, `Chess::Result`)
is an external collaborator of this code (spec section 6); it is modelled
abstractly by the `Rules` structure below.  The character stream
(`PgnFile`, a thin wrapper over QTextStream, also external to the given
sources) is modelled as a `List Char` of the remaining input: reading a
character takes the head, and rewinding one character conses it back.
-/

namespace PgnC

/-- Item kinds returned by the scanner (the PgnItem enumeration of PgnGame). -/
inductive PgnItem where
  | PgnMove
  | PgnMoveNumber
  | PgnTag
  | PgnComment
  | PgnNag
  | PgnResult
  | PgnEmpty
  | PgnError
deriving DecidableEq, Repr

open PgnItem

/-- Modelled from the spec: the value set of `Chess::Result`
(White wins, Black wins, Draw, Ongoing/unknown, Error), section 3. -/
inductive ChessResult where
  | whiteWins
  | blackWins
  | draw
  | noResult
  | resultError
deriving DecidableEq, Repr

/-- Shorthand turning a string literal into the `List Char` model of QString. -/
def lc (s : String) : List Char := s.data

/-- Modelled from the spec: `Chess::Result` construction from a string;
the four terminator strings map to the four real results, anything else
to the error sentinel. -/
def ChessResult.ofStr (s : List Char) : ChessResult :=
  if s = lc "1-0" then .whiteWins
  else if s = lc "0-1" then .blackWins
  else if s = lc "1/2-1/2" then .draw
  else if s = lc "*" then .noResult
  else .resultError

/-- Modelled from the spec: `Chess::Result::toSimpleString`, the terminator
string of a result (section 4.3: tags use the simple string form). -/
def ChessResult.toSimpleStr : ChessResult → List Char
  | .whiteWins => lc "1-0"
  | .blackWins => lc "0-1"
  | .draw => lc "1/2-1/2"
  | .noResult => lc "*"
  | .resultError => lc "*"

/-- Modelled from the spec: `Chess::Result::toString`, the terminator string
appended after the move list (section 4.3). -/
def ChessResult.toStr : ChessResult → List Char
  | .whiteWins => lc "1-0"
  | .blackWins => lc "0-1"
  | .draw => lc "1/2-1/2"
  | .noResult => lc "*"
  | .resultError => lc "*"

/-- Modelled from the spec: QChar::isSpace on the ASCII whitespace range. -/
def qIsSpace (c : Char) : Bool :=
  c = ' ' || c = '\t' || c = '\n' || c = '\x0b' || c = '\x0c' || c = '\r'

/-- Modelled from the spec: `PgnFile::skipWhiteSpace` consumes the
whitespace at the head of the stream. -/
def skipWs (s : List Char) : List Char := s.dropWhile qIsSpace

/-- Content of the rest of the current line (`PgnFile::readLine` result). -/
def lineTake (s : List Char) : List Char :=
  s.takeWhile (fun c => c ≠ '\n' && c ≠ '\r')

/-- Stream remaining after `PgnFile::readLine`: past the line and its
terminating newline character. -/
def lineDrop (s : List Char) : List Char :=
  (s.dropWhile (fun c => c ≠ '\n' && c ≠ '\r')).drop 1

/-- Trim surrounding whitespace (QString::trimmed). -/
def trim (s : List Char) : List Char :=
  ((s.dropWhile qIsSpace).reverse.dropWhile qIsSpace).reverse

/-- First space-separated section of a string (QString::section(' ', 0, 0)). -/
def section0 (s : List Char) : List Char := s.takeWhile (· ≠ ' ')

/-- Everything after the first space (QString::section(' ', 1)); empty when
the string has no space. -/
def section1 (s : List Char) : List Char :=
  match s.dropWhile (· ≠ ' ') with
  | [] => []
  | _ :: t => t

/-- Remove every double-quote character (the `.replace('\x22', "")` step). -/
def removeQuotes (s : List Char) : List Char := s.filter (· ≠ '"')

/-- Numeric value of a list of decimal digit characters. -/
def digitsVal (ds : List Char) : Nat :=
  ds.foldl (fun a c => a * 10 + (c.toNat - 48)) 0

/-- Signed digit-string value with the 32-bit int range check of
QString::toInt. -/
def qtoIntCore (sign : Int) (ds : List Char) : Option Int :=
  if ds ≠ [] ∧ ds.all Char.isDigit then
    let v : Int := sign * (digitsVal ds : Int)
    if -2147483648 ≤ v ∧ v ≤ 2147483647 then some v else none
  else none

/-- Modelled from the spec: QString::toInt — an optional sign followed by
decimal digits, failing on any other character and on values outside the
32-bit int range. -/
def qtoInt? (s : List Char) : Option Int :=
  match s with
  | [] => none
  | c :: t =>
    if c = '+' then qtoIntCore 1 t
    else if c = '-' then qtoIntCore (-1) t
    else qtoIntCore 1 (c :: t)

/-- Decimal rendering of a natural number (QString::number), via a fueled
helper so that it reduces definitionally. -/
def natStrAux : Nat → Nat → List Char
  | 0, _ => []
  | fuel + 1, n =>
    if n < 10 then [Char.ofNat (48 + n)]
    else natStrAux fuel (n / 10) ++ [Char.ofNat (48 + n % 10)]

/-- Decimal rendering of a natural number (QString::number). -/
def natStr (n : Nat) : List Char := natStrAux (n + 1) n

/-- The null QChar, the C++ default value of the scanner's bracket locals. -/
def nullChar : Char := '\x00'

/-- Modelled from the spec: the external rules engine interface of
section 6 — variants, FEN decoding, move parsing, legality, application
and rendering.  Only what `pgngame.cpp` calls is included. -/
structure Rules where
  Pos : Type
  Mv : Type
  Var : Type
  deqPos : DecidableEq Pos
  deqMv : DecidableEq Mv
  deqVar : DecidableEq Var
  standard : Var
  isNoneVar : Var → Bool
  isRandom : Var → Bool
  startingFen : Var → List Char
  varToStr : Var → List Char
  parseVar : List Char → Var
  decodeFen : List Char → Option Pos
  moveFromStr : Pos → List Char → Option Mv
  isLegalMove : Pos → Mv → Bool
  makeMove : Pos → Mv → Pos
  moveToStr : Pos → Mv → List Char

attribute [instance] Rules.deqPos Rules.deqMv Rules.deqVar

variable {R : Rules}

/-- Modelled from the spec: a `Chess::Board` — the active variant plus the
current position (none before any successful position load; `applyVariant`
selects the rule set, the spec gives it no effect on the stored position). -/
structure Board (R : Rules) where
  var : R.Var
  pos : Option R.Pos

/-- Board::setVariant. -/
def Board.setVariant (b : Board R) (v : R.Var) : Board R := { b with var := v }

/-- Board::setBoard: load a FEN, reporting success; a failed load leaves the
board unchanged. -/
def Board.setBoard (b : Board R) (fen : List Char) : Bool × Board R :=
  match R.decodeFen fen with
  | some p => (true, { b with pos := some p })
  | none => (false, b)

/-- Board::moveFromString relative to the current position. -/
def Board.moveFromString (b : Board R) (s : List Char) : Option R.Mv :=
  match b.pos with
  | some p => R.moveFromStr p s
  | none => none

/-- Board::isLegalMove relative to the current position. -/
def Board.isLegal (b : Board R) (m : R.Mv) : Bool :=
  match b.pos with
  | some p => R.isLegalMove p m
  | none => false

/-- Board::makeMove: advance the current position. -/
def Board.apply (b : Board R) (m : R.Mv) : Board R :=
  { b with pos := b.pos.map (fun p => R.makeMove p m) }

/-- Board::moveString: render a move in the current position. -/
def Board.render (b : Board R) (m : R.Mv) : List Char :=
  match b.pos with
  | some p => R.moveToStr p m
  | none => []

/-- The PgnGame record fields touched by the codec (data model, spec
section 3). -/
structure GameSt (R : Rules) where
  whitePlayer : List Char := []
  blackPlayer : List Char := []
  result : ChessResult := .noResult
  variant : R.Var
  fen : List Char := []
  isRandomVariant : Bool := false
  hasTags : Bool := false
  moves : List R.Mv := []

/-- Outcome of the scanning loop of `PgnGame::readItem`: either the early
`return PgnError` after rewinding one character (a tag seen after moves), or
a normal loop exit carrying the accumulated classification and text. -/
inductive ScanOut where
  | err (rest : List Char)
  | norm (ty : PgnItem) (str : List Char) (rest : List Char)
deriving Repr

/-- The character-consuming loop of `PgnGame::readItem`
(pgngame.cpp lines 57-143), translated line by line.  `hasTags` and
`hasMoves` are the values of `m_hasTags` and `m_moves.size() > 0` during
the call; `ty`, `ob`, `cb`, `lvl`, `str` are the locals `itemType`,
`openingBracket`, `closingBracket`, `bracketLevel`, `str`.  The fuel only
drives the recursion; one unit per consumed character is always enough. -/
def scanLoop (hasTags hasMoves : Bool) :
    Nat → PgnItem → Char → Char → Int → List Char → List Char → ScanOut
  | 0, ty, _, _, _, str, s => .norm ty str s
  | _ + 1, ty, _, _, _, str, [] => .norm ty str []
  | fuel + 1, ty, ob, cb, lvl, str, c :: rest =>
    if ¬hasTags ∧ ty ≠ PgnTag ∧ c ≠ '[' then
      scanLoop hasTags hasMoves fuel ty ob cb lvl str rest
    else if (c = '\n' ∨ c = '\r') ∧ ty ≠ PgnComment then
      .norm ty str rest
    else if ob = nullChar ∧ str = [] ∧ c = ';' then
      .norm PgnComment (lineTake rest) (lineDrop rest)
    else if ob = nullChar ∧ str = [] ∧ c = '%' then
      scanLoop hasTags hasMoves fuel ty ob cb lvl str (lineDrop rest)
    else if ob = nullChar ∧ str = [] ∧ c = '.' then
      scanLoop hasTags hasMoves fuel ty ob cb lvl str (skipWs rest)
    else if ob = nullChar ∧ str = [] ∧ c = '$' then
      scanLoop hasTags hasMoves fuel PgnNag ob cb lvl str rest
    else
      let ty1 := if ob = nullChar ∧ str = [] ∧ c.isDigit ∧ ty = PgnMove then
        PgnMoveNumber else ty
      if ob = nullChar ∧ c = '[' ∧ hasMoves then
        .err (c :: rest)
      else
        let tycb : PgnItem × Char :=
          if ob = nullChar then
            if c = '[' then (PgnTag, ']')
            else if c = '(' then (PgnComment, ')')
            else if c = '{' then (PgnComment, '}')
            else (ty1, cb)
          else (ty1, cb)
        let ty2 := tycb.1
        let cb2 := tycb.2
        let ob2 := if ob = nullChar ∧ cb2 ≠ nullChar then c else ob
        if c = ob2 then
          scanLoop hasTags hasMoves fuel ty2 ob2 cb2 (lvl + 1) str rest
        else if c = cb2 then
          if lvl - 1 ≤ 0 then .norm ty2 str rest
          else scanLoop hasTags hasMoves fuel ty2 ob2 cb2 (lvl - 1) str rest
        else if ty2 = PgnMove ∧ qIsSpace c then .norm ty2 str rest
        else if ty2 = PgnMoveNumber ∧ (qIsSpace c ∨ c = '.') then .norm ty2 str rest
        else if ty2 = PgnNag ∧ qIsSpace c then .norm ty2 str rest
        else scanLoop hasTags hasMoves fuel ty2 ob2 cb2 lvl (str ++ [c]) rest

/-- Post-loop processing of `PgnGame::readItem` (pgngame.cpp lines 145-237):
trimming, terminator detection, tag dispatch, move decoding and legality,
NAG range check. -/
def finishItem (g : GameSt R) (b : Board R) (ty : PgnItem) (str0 : List Char)
    (rest : List Char) : PgnItem × GameSt R × Board R × List Char :=
  let str := trim str0
  if str = [] then (PgnEmpty, g, b, rest)
  else if (ty = PgnMove ∨ ty = PgnMoveNumber) ∧
      (str = lc "*" ∨ str = lc "1/2-1/2" ∨ str = lc "1-0" ∨ str = lc "0-1") then
    (PgnResult, { g with result := ChessResult.ofStr str }, b, rest)
  else if ty = PgnTag then
    let tag := section0 str
    let param := removeQuotes (section1 str)
    if tag = lc "White" then (PgnTag, { g with whitePlayer := param }, b, rest)
    else if tag = lc "Black" then (PgnTag, { g with blackPlayer := param }, b, rest)
    else if tag = lc "Result" then
      (PgnTag, { g with result := ChessResult.ofStr param }, b, rest)
    else if tag = lc "Variant" then
      let v := R.parseVar param
      if R.isNoneVar v then (PgnError, { g with variant := v }, b, rest)
      else (PgnTag, { g with variant := v }, b.setVariant v, rest)
    else if tag = lc "FEN" then
      let r := b.setBoard param
      if r.1 then (PgnTag, { g with fen := param }, r.2, rest)
      else (PgnError, { g with fen := param }, r.2, rest)
    else (PgnTag, g, b, rest)
  else if ty = PgnMove then
    if ¬g.hasTags then (PgnError, g, b, rest)
    else
      let gb :=
        if g.fen = [] then
          let f := R.startingFen b.var
          ({ g with fen := f }, (b.setBoard f).2)
        else (g, b)
      let g1 := gb.1
      let b1 := gb.2
      match b1.moveFromString str with
      | some m =>
        if b1.isLegal m then
          (PgnMove, { g1 with moves := g1.moves ++ [m] }, b1.apply m, rest)
        else (PgnError, g1, b1, rest)
      | none => (PgnError, g1, b1, rest)
  else if ty = PgnNag then
    match qtoInt? str with
    | some n => if n < 0 ∨ n > 255 then (PgnError, g, b, rest) else (PgnNag, g, b, rest)
    | none => (PgnError, g, b, rest)
  else (ty, g, b, rest)

/-- PgnGame::readItem: skip leading whitespace, run the scanning loop, then
post-process.  The early-return branch (tag after moves) has already rewound
the stream by one character inside `scanLoop`.  One unit of fuel per
character of the remaining stream is always enough, since every loop
iteration consumes at least the character it read. -/
def readItem (g : GameSt R) (b : Board R) (s : List Char) :
    PgnItem × GameSt R × Board R × List Char :=
  match scanLoop g.hasTags (!g.moves.isEmpty) ((skipWs s).length + 1)
      PgnItem.PgnMove nullChar nullChar 0 [] (skipWs s) with
  | .err rest => (PgnItem.PgnError, g, b, rest)
  | .norm ty str rest => finishItem g b ty str rest

/-- The item loop of the parsing constructor `PgnGame::PgnGame(PgnFile&, int)`
(pgngame.cpp lines 246-268): loop while fewer than `maxMoves` moves are
stored; abort on Error, record tags, stop on Result or Empty. -/
def parseLoop (maxMoves : Nat) :
    Nat → GameSt R → Board R → List Char → GameSt R × Board R × List Char
  | 0, g, b, s => (g, b, s)
  | fuel + 1, g, b, s =>
    if g.moves.length < maxMoves then
      let r := readItem g b s
      let it := r.1
      let g1 := r.2.1
      let b1 := r.2.2.1
      let s1 := r.2.2.2
      if it = PgnItem.PgnError then (g1, b1, s1)
      else if it = PgnItem.PgnTag then
        parseLoop maxMoves fuel { g1 with hasTags := true } b1 s1
      else if it = PgnItem.PgnResult ∨ it = PgnItem.PgnEmpty then (g1, b1, s1)
      else parseLoop maxMoves fuel g1 b1 s1
    else (g, b, s)

/-- Fresh record state of the parsing constructor: empty names, no result,
standard variant, no tags, no moves. -/
def initGame (R : Rules) : GameSt R :=
  { variant := R.standard }

/-- PgnGame::PgnGame(PgnFile&, int): initialize the record, take the file's
variant if set (otherwise push standard onto the board), then run the item
loop.  `fileVariant = none` models `in.variant().isNone()`. -/
def pgnParse (R : Rules) (fileVariant : Option R.Var) (b : Board R)
    (maxMoves : Nat) (s : List Char) : GameSt R × Board R × List Char :=
  match fileVariant with
  | some v => parseLoop maxMoves (s.length + 1) { initGame R with variant := v } b s
  | none =>
    parseLoop maxMoves (s.length + 1) (initGame R) (b.setVariant R.standard) s

/-- Move-section chunks of `PgnGame::write` (pgngame.cpp lines 295-303):
a line break before every 8th token, a move number before White's moves,
the rendered move and a trailing space, replaying each move on the board. -/
def movesOps : Board R → Nat → List R.Mv → List (List Char)
  | _, _, [] => []
  | b, i, m :: ms =>
    (if i % 8 = 0 then [lc "\n"] else []) ++
    (if i % 2 = 0 then [natStr (i / 2 + 1), lc ". "] else []) ++
    [b.render m, lc " "] ++ movesOps (b.apply m) (i + 1) ms

/-- The sequence of strings inserted into the output stream by
`PgnGame::write` (pgngame.cpp lines 270-305), one list entry per stream
insertion; nothing is emitted when the record has no tags.  `today` models
`QDate::currentDate().toString("yyyy.MM.dd")`. -/
def writeOps (g : GameSt R) (today : List Char) : List (List Char) :=
  if ¬g.hasTags then [] else
  [lc "[Date \"", today, lc "\"]\n",
   lc "[White \"", g.whitePlayer, lc "\"]\n",
   lc "[Black \"", g.blackPlayer, lc "\"]\n",
   lc "[Result \"", g.result.toSimpleStr, lc "\"]\n"] ++
  (if g.variant ≠ R.standard then
    [lc "[Variant \"", R.varToStr g.variant, lc "\"]\n"] else []) ++
  (if R.isRandom g.variant ∨ g.fen ≠ R.startingFen g.variant then
    [lc "[FEN \"", g.fen, lc "\"]\n"] else []) ++
  movesOps ((Board.mk g.variant none).setBoard g.fen).2 0 g.moves ++
  [g.result.toStr, lc "\n\n"]

/-- Concatenation of emitted chunks. -/
def catChunks (l : List (List Char)) : List Char := l.foldr (· ++ ·) []

/-- The text appended to the destination file by `PgnGame::write`. -/
def writeOut (g : GameSt R) (today : List Char) : List Char :=
  catChunks (writeOps g today)

/-- Position reached by playing a move list from a position. -/
def chainPos (R : Rules) (p : R.Pos) : List R.Mv → R.Pos
  | [] => p
  | m :: ms => chainPos R (R.makeMove p m) ms

/-- Each move of the list is legal in the position reached by playing the
moves before it. -/
def chainOk (R : Rules) (p : R.Pos) : List R.Mv → Bool
  | [] => true
  | m :: ms => R.isLegalMove p m && chainOk R (R.makeMove p m) ms

/-- The data-model invariant of spec section 3: `moves` is a legal
continuation of `startingPosition` — every prefix leads to a position in
which the next move is legal. -/
def LegalCont (R : Rules) (fen : List Char) (ms : List R.Mv) : Prop :=
  ms = [] ∨ ∃ p, R.decodeFen fen = some p ∧ chainOk R p ms = true

/-- Engine sanity used by the legality invariant: every variant's standard
starting position is a nonempty string the engine can load (spec section 6:
`standardStartingPosition` produces a loadable position string). -/
def RulesWF (R : Rules) : Prop :=
  ∀ v : R.Var, R.startingFen v ≠ [] ∧ ∃ p, R.decodeFen (R.startingFen v) = some p

/-- Invariant maintained by the builder between items: while no position has
been recorded there are no moves, and once one is recorded it decodes, the
stored moves are a legal chain from it, and the shared board tracks the
position reached by that chain. -/
def ParseInv (R : Rules) (g : GameSt R) (b : Board R) : Prop :=
  (g.fen = [] → g.moves = []) ∧
  (g.fen ≠ [] → ∃ p, R.decodeFen g.fen = some p ∧ chainOk R p g.moves = true ∧
    b.pos = some (chainPos R p g.moves))

/-- Character class allowed anywhere in a bare move token: no whitespace and
none of the characters the scanner treats specially. -/
def mvCharOk (c : Char) : Bool :=
  !qIsSpace c && c ≠ '[' && c ≠ '(' && c ≠ '{' && c ≠ ')' && c ≠ '}' && c ≠ ']' &&
  c ≠ '\x00' && c ≠ ';' && c ≠ '%' && c ≠ '.' && c ≠ '$'

/-- Well-shaped move token: nonempty, all characters plain, not starting with
a digit (that would classify it as a move number) and not the bare
asterisk terminator. -/
def mvTokOk (t : List Char) : Bool :=
  match t with
  | [] => false
  | c :: cs => mvCharOk c && !c.isDigit && cs.all mvCharOk && !(t == lc "*")

/-- A concrete permissive rules engine used to evaluate the development on
closed inputs: positions and moves are strings, every well-shaped token is
legal, rendering is the identity. -/
def TR : Rules where
  Pos := List Char
  Mv := List Char
  Var := List Char
  deqPos := inferInstance
  deqMv := inferInstance
  deqVar := inferInstance
  standard := lc "standard"
  isNoneVar := fun v => v = []
  isRandom := fun _ => false
  startingFen := fun _ => lc "SF"
  varToStr := fun v => v
  parseVar := fun s => s
  decodeFen := fun f => some f
  moveFromStr := fun _ s => some s
  isLegalMove := fun _ _ => true
  makeMove := fun p _ => p
  moveToStr := fun _ m => m

/-- A variant of the test engine whose move legality requires a well-shaped
token and whose renderer is the identity, making rendering faithful. -/
def TR2 : Rules :=
  { TR with isLegalMove := fun _ m => mvTokOk m }

/-- A variant of the test engine with a fixed move rendering, used where a
hypothesis constrains every rendered move string. -/
def TRW : Rules :=
  { TR with moveToStr := fun _ _ => lc "x" }

/-! ## Basic facts about the string helpers -/

theorem dw_self {p : Char → Bool} {s : List Char} (h : ∀ c ∈ s, p c = false) :
    s.dropWhile p = s := by
  cases s with
  | nil => rfl
  | cons a l => simp [List.dropWhile_cons, h a (by simp)]

theorem trim_no_space {s : List Char} (h : ∀ c ∈ s, qIsSpace c = false) :
    trim s = s := by
  unfold trim
  rw [dw_self h, dw_self (fun c hc => h c (List.mem_reverse.mp hc)), List.reverse_reverse]

theorem trim_ends {a b : Char} {mid : List Char} (ha : qIsSpace a = false)
    (hb : qIsSpace b = false) : trim (a :: (mid ++ [b])) = a :: (mid ++ [b]) := by
  have h1 : List.dropWhile qIsSpace (a :: (mid ++ [b])) = a :: (mid ++ [b]) := by
    rw [List.dropWhile_cons, ha]; simp
  have h2 : List.dropWhile qIsSpace (b :: (mid.reverse ++ [a])) =
      b :: (mid.reverse ++ [a]) := by
    rw [List.dropWhile_cons, hb]; simp
  unfold trim
  rw [h1]
  rw [show (a :: (mid ++ [b])).reverse = b :: (mid.reverse ++ [a]) by simp]
  rw [h2]
  simp

theorem tw_append_all {p : Char → Bool} {t : List Char} {e : Char}
    {rest : List Char} (h : ∀ c ∈ t, p c = true) (he : p e = false) :
    (t ++ e :: rest).takeWhile p = t := by
  induction t with
  | nil => simp [List.takeWhile_cons, he]
  | cons a l ih =>
    simp only [List.cons_append, List.takeWhile_cons, h a (by simp)]
    rw [ih (fun c hc => h c (by simp [hc]))]
    simp

theorem dw_append_all {p : Char → Bool} {t : List Char} {e : Char}
    {rest : List Char} (h : ∀ c ∈ t, p c = true) (he : p e = false) :
    (t ++ e :: rest).dropWhile p = e :: rest := by
  induction t with
  | nil => simp [List.dropWhile_cons, he]
  | cons a l ih =>
    simp only [List.cons_append, List.dropWhile_cons, h a (by simp)]
    exact ih (fun c hc => h c (by simp [hc]))

theorem skipWs_no {c : Char} {s : List Char} (h : qIsSpace c = false) :
    skipWs (c :: s) = c :: s := by
  simp [skipWs, List.dropWhile_cons, h]

/-! ## Single-step facts about the scanning loop -/

theorem digit_ne {c : Char} (h : c.isDigit = true) {d : Char}
    (hd : d.isDigit = false) : c ≠ d := by
  intro e
  rw [e, hd] at h
  cases h

theorem digit_not_space {c : Char} (h : c.isDigit = true) :
    qIsSpace c = false := by
  simp only [qIsSpace, Bool.or_eq_false_iff, decide_eq_false_iff_not]
  exact ⟨⟨⟨⟨⟨digit_ne h (by decide), digit_ne h (by decide)⟩,
    digit_ne h (by decide)⟩, digit_ne h (by decide)⟩,
    digit_ne h (by decide)⟩, digit_ne h (by decide)⟩

theorem space_ne {e : Char} (he : qIsSpace e = true) {d : Char}
    (hd : qIsSpace d = false) : e ≠ d := by
  intro h
  rw [h, hd] at he
  cases he

theorem space_not_digit {e : Char} (he : qIsSpace e = true) :
    e.isDigit = false := by
  cases hd : e.isDigit
  · rfl
  · rw [digit_not_space hd] at he
    cases he

theorem mvCharOk_not_space {c : Char} (h : mvCharOk c = true) :
    qIsSpace c = false := by
  simp only [mvCharOk, Bool.and_eq_true, Bool.not_eq_true'] at h
  exact h.1.1.1.1.1.1.1.1.1.1.1

/-- Entering a tag item: a `[` in pristine state with no stored moves. -/
theorem scan_step_lbracket {ht : Bool} {fuel : Nat} {rest : List Char} :
    scanLoop ht false (fuel + 1) PgnMove nullChar nullChar 0 [] ('[' :: rest) =
      scanLoop ht false fuel PgnTag '[' ']' 1 [] rest := by
  simp [scanLoop, nullChar]

/-- Closing bracket of a tag at nesting level one ends the item. -/
theorem scan_step_rbracket {ht hm : Bool} {fuel : Nat} {str rest : List Char} :
    scanLoop ht hm (fuel + 1) PgnTag '[' ']' 1 str (']' :: rest) =
      .norm PgnTag str rest := by
  simp [scanLoop, nullChar]

/-- A carriage return or line feed ends any non-comment item. -/
theorem scan_step_newline {ht hm : Bool} {ty : PgnItem} {ob cb : Char}
    {lvl : Int} {str rest : List Char} {fuel : Nat} {c : Char}
    (hc : c = '\n' ∨ c = '\r') (hty : ty ≠ PgnComment)
    (hskip : ht = true ∨ ty = PgnTag) :
    scanLoop ht hm (fuel + 1) ty ob cb lvl str (c :: rest) =
      .norm ty str rest := by
  have h1 : ¬(¬ht = true ∧ ¬ty = PgnTag ∧ ¬c = '[') := by
    rcases hskip with h | h
    · simp [h]
    · simp [h]
  have h2 : (c = '\n' ∨ c = '\r') ∧ ¬ty = PgnComment := ⟨hc, hty⟩
  rw [scanLoop, if_neg h1, if_pos h2]

/-- A dollar sign in pristine state reclassifies the item as a NAG. -/
theorem scan_step_dollar {hm : Bool} {fuel : Nat} {rest : List Char} :
    scanLoop true hm (fuel + 1) PgnMove nullChar nullChar 0 [] ('$' :: rest) =
      scanLoop true hm fuel PgnNag nullChar nullChar 0 [] rest := by
  simp [scanLoop, nullChar]

/-- Whitespace ends a NAG item. -/
theorem scan_step_nag_space {hm : Bool} {fuel : Nat} {str rest : List Char}
    {e : Char} (he : qIsSpace e = true) :
    scanLoop true hm (fuel + 1) PgnNag nullChar nullChar 0 str (e :: rest) =
      .norm PgnNag str rest := by
  by_cases hnl : e = '\n' ∨ e = '\r'
  · exact scan_step_newline hnl (by simp) (Or.inl rfl)
  · have e1 : e ≠ ';' := space_ne he (by decide)
    have e2 : e ≠ '%' := space_ne he (by decide)
    have e3 : e ≠ '.' := space_ne he (by decide)
    have e4 : e ≠ '$' := space_ne he (by decide)
    have e5 : e ≠ '[' := space_ne he (by decide)
    have e6 : e ≠ '(' := space_ne he (by decide)
    have e7 : e ≠ '{' := space_ne he (by decide)
    have e8 : ¬(e = '\x00') := space_ne he (by decide)
    have e9 : e.isDigit = false := space_not_digit he
    simp [scanLoop, nullChar, hnl, e1, e2, e3, e4, e5, e6, e7, e8, e9, he]

/-- Space or period ends a move-number item with accumulated text. -/
theorem scan_step_mn_stop {hm : Bool} {fuel : Nat} {str rest : List Char}
    {e : Char} (he : qIsSpace e = true ∨ e = '.') (hs : str ≠ []) :
    scanLoop true hm (fuel + 1) PgnMoveNumber nullChar nullChar 0 str (e :: rest) =
      .norm PgnMoveNumber str rest := by
  by_cases hnl : e = '\n' ∨ e = '\r'
  · exact scan_step_newline hnl (by simp) (Or.inl rfl)
  · have hch : e ≠ ';' ∧ e ≠ '%' ∧ e ≠ '$' ∧ e ≠ '[' ∧ e ≠ '(' ∧
        e ≠ '{' ∧ ¬(e = '\x00') := by
      rcases he with he | he
      · exact ⟨space_ne he (by decide), space_ne he (by decide),
          space_ne he (by decide), space_ne he (by decide),
          space_ne he (by decide), space_ne he (by decide),
          space_ne he (by decide)⟩
      · subst he
        exact ⟨by decide, by decide, by decide, by decide, by decide,
          by decide, by decide⟩
    obtain ⟨e1, e2, e3, e4, e5, e6, e7⟩ := hch
    simp [scanLoop, nullChar, hnl, e1, e2, e3, e4, e5, e6, e7, hs, he]

/-- Whitespace ends a move item with accumulated text. -/
theorem scan_step_mv_stop {hm : Bool} {fuel : Nat} {str rest : List Char}
    {e : Char} (he : qIsSpace e = true) (hs : str ≠ []) :
    scanLoop true hm (fuel + 1) PgnMove nullChar nullChar 0 str (e :: rest) =
      .norm PgnMove str rest := by
  by_cases hnl : e = '\n' ∨ e = '\r'
  · exact scan_step_newline hnl (by simp) (Or.inl rfl)
  · have e1 : e ≠ ';' := space_ne he (by decide)
    have e2 : e ≠ '%' := space_ne he (by decide)
    have e3 : e ≠ '.' := space_ne he (by decide)
    have e4 : e ≠ '$' := space_ne he (by decide)
    have e5 : e ≠ '[' := space_ne he (by decide)
    have e6 : e ≠ '(' := space_ne he (by decide)
    have e7 : e ≠ '{' := space_ne he (by decide)
    have e8 : ¬(e = '\x00') := space_ne he (by decide)
    simp [scanLoop, nullChar, hnl, e1, e2, e3, e4, e5, e6, e7, e8, hs, he]

/-! ## Run lemmas: plain characters accumulate into the item text -/

/-- Inside a tag, every character other than the brackets and a newline is
appended to the text. -/
theorem scan_run_tag {t : List Char}
    (h : ∀ c ∈ t, c ≠ '[' ∧ c ≠ ']' ∧ c ≠ '\n' ∧ c ≠ '\r') (ht hm : Bool)
    (lvl : Int) :
    ∀ (str rest : List Char) (fuel : Nat),
      scanLoop ht hm (t.length + fuel) PgnTag '[' ']' lvl str (t ++ rest) =
        scanLoop ht hm fuel PgnTag '[' ']' lvl (str ++ t) rest := by
  induction t with
  | nil => intro str rest fuel; simp
  | cons a l ih =>
    intro str rest fuel
    obtain ⟨a1, a2, a3, a4⟩ := h a (by simp)
    have hlen : (a :: l).length + fuel = (l.length + fuel) + 1 := by
      simp [List.length_cons]; omega
    rw [hlen, List.cons_append]
    simp only [scanLoop, nullChar]
    rw [if_neg (by simp), if_neg (by simp [a3, a4]), if_neg (by simp),
      if_neg (by simp), if_neg (by simp), if_neg (by simp)]
    simp only [if_neg (show ¬((('[' : Char) = '\x00') ∧ str = [] ∧
        a.isDigit = true ∧ PgnTag = PgnMove) by simp),
      if_neg (show ¬((('[' : Char) = '\x00') ∧ a = '[' ∧ hm = true) by simp),
      if_neg (show ¬((('[' : Char) = '\x00') ∧ ((']' : Char) ≠ '\x00')) by simp),
      if_neg (show ¬(('[' : Char) = '\x00') by decide)]
    rw [if_neg (by simp [a1]), if_neg (by simp [a2]), if_neg (by simp),
      if_neg (by simp), if_neg (by simp)]
    have := ih (fun c hc => h c (by simp [hc])) (str ++ [a]) rest fuel
    rw [this]
    simp

/-- In pristine state with nonempty accumulated text, a plain move character
is appended. -/
theorem scan_run_mv {t : List Char} (h : ∀ c ∈ t, mvCharOk c = true)
    (hm : Bool) :
    ∀ (str rest : List Char) (fuel : Nat), str ≠ [] →
      scanLoop true hm (t.length + fuel) PgnMove nullChar nullChar 0 str
          (t ++ rest) =
        scanLoop true hm fuel PgnMove nullChar nullChar 0 (str ++ t) rest := by
  induction t with
  | nil => intro str rest fuel _; simp
  | cons a l ih =>
    intro str rest fuel hs
    have ha := h a (by simp)
    simp only [mvCharOk, Bool.and_eq_true, Bool.not_eq_true',
      decide_eq_true_eq] at ha
    obtain ⟨⟨⟨⟨⟨⟨⟨⟨⟨⟨⟨hsp, c1⟩, c2⟩, c3⟩, c4⟩, c5⟩, c6⟩, c7⟩, c8⟩, c9⟩, c10⟩, c11⟩ := ha
    have hnl : ¬(a = '\n' ∨ a = '\r') := by
      rintro (rfl | rfl) <;> simp [qIsSpace] at hsp
    have hlen : (a :: l).length + fuel = (l.length + fuel) + 1 := by
      simp [List.length_cons]; omega
    rw [hlen, List.cons_append]
    simp [scanLoop, nullChar, hnl, hs, hsp, c1, c2, c3, c4, c5, c6, c7, c8,
      c9, c10, c11]
    have := ih (fun c hc => h c (by simp [hc])) (str ++ [a]) rest fuel (by simp)
    simp only [nullChar] at this
    rw [this]
    simp

/-- In pristine state, digits accumulate into a NAG or move-number item. -/
theorem scan_run_digits {t : List Char} (h : ∀ c ∈ t, c.isDigit = true)
    {ty : PgnItem} (hty : ty = PgnNag ∨ ty = PgnMoveNumber) (hm : Bool) :
    ∀ (str rest : List Char) (fuel : Nat),
      scanLoop true hm (t.length + fuel) ty nullChar nullChar 0 str (t ++ rest) =
        scanLoop true hm fuel ty nullChar nullChar 0 (str ++ t) rest := by
  induction t with
  | nil => intro str rest fuel; simp
  | cons a l ih =>
    intro str rest fuel
    have ha := h a (by simp)
    have hsp := digit_not_space ha
    have hnl : ¬(a = '\n' ∨ a = '\r') := by
      rintro (rfl | rfl) <;> simp [qIsSpace] at hsp
    have e1 : a ≠ ';' := digit_ne ha (by decide)
    have e2 : a ≠ '%' := digit_ne ha (by decide)
    have e3 : a ≠ '.' := digit_ne ha (by decide)
    have e4 : a ≠ '$' := digit_ne ha (by decide)
    have e5 : a ≠ '[' := digit_ne ha (by decide)
    have e6 : a ≠ '(' := digit_ne ha (by decide)
    have e7 : a ≠ '{' := digit_ne ha (by decide)
    have e8 : a ≠ '\x00' := digit_ne ha (by decide)
    have hmove : ty ≠ PgnMove := by rcases hty with rfl | rfl <;> simp
    have hmv2 : ty = PgnMove → False := hmove
    have hlen : (a :: l).length + fuel = (l.length + fuel) + 1 := by
      simp [List.length_cons]; omega
    rw [hlen, List.cons_append]
    simp [scanLoop, nullChar, hnl, hsp, hmv2, e1, e2, e3, e4, e5, e6, e7,
      e8]
    rw [if_neg (show ¬(str = [] ∧ a.isDigit = true ∧ ty = PgnMove) by
      simp [hmove])]
    have := ih (fun c hc => h c (by simp [hc])) (str ++ [a]) rest fuel
    simp only [nullChar] at this
    rw [this]
    simp

/-! ## Claim C7: a record without tags writes nothing -/

/-- C7: for every Game Record whose `hasTags` flag is false, the writer
produces zero bytes of output (pgngame.cpp lines 270-273: `write` returns
before opening the destination when `m_hasTags` is false). -/
theorem C7_no_tags_writes_nothing (R : Rules) (g : GameSt R)
    (today : List Char) (h : g.hasTags = false) :
    writeOut g today = [] := by
  unfold writeOut writeOps
  rw [h]
  simp [catChunks]

/-- Witness for C7 at a concrete record. -/
theorem C7_no_tags_writes_nothing_witness :
    (initGame TR).hasTags = false ∧ writeOut (initGame TR) (lc "2026.10.12") = [] :=
  ⟨rfl, C7_no_tags_writes_nothing TR (initGame TR) (lc "2026.10.12") rfl⟩

/-! ## Claim C3: a tag bracket after accepted moves rewinds and errors -/

/-- C3: whenever the scanner observes an opening `[` outside any bracket
while the record already holds at least one move, it returns an Error item
with the stream rewound exactly one character — the returned stream starts
at that `[` — and the builder loop stops with the record unchanged
(pgngame.cpp lines 100-110 and 255-259). -/
theorem C3_tag_after_moves_rewinds (R : Rules) (g : GameSt R) (b : Board R)
    (rest : List Char) (hmv : g.moves ≠ []) :
    (∀ (ht : Bool) (ty : PgnItem) (cb : Char) (lvl : Int) (str : List Char)
       (fuel : Nat),
       scanLoop ht true (fuel + 1) ty nullChar cb lvl str ('[' :: rest) =
         .err ('[' :: rest)) ∧
    readItem g b ('[' :: rest) = (PgnItem.PgnError, g, b, '[' :: rest) ∧
    (∀ (maxMoves : Nat) (fuel : Nat),
       parseLoop maxMoves (fuel + 1) g b ('[' :: rest) = (g, b, '[' :: rest)) := by
  have hscan : ∀ (ht : Bool) (ty : PgnItem) (cb : Char) (lvl : Int)
      (str : List Char) (fuel : Nat),
      scanLoop ht true (fuel + 1) ty nullChar cb lvl str ('[' :: rest) =
        .err ('[' :: rest) := by
    intro ht ty cb lvl str fuel
    simp [scanLoop, nullChar]
  have hread : readItem g b ('[' :: rest) = (PgnItem.PgnError, g, b, '[' :: rest) := by
    unfold readItem
    rw [skipWs_no (by decide)]
    have hmv2 : (!g.moves.isEmpty) = true := by
      simp [List.isEmpty_eq_false.mpr hmv]
    rw [hmv2, hscan]
  refine ⟨hscan, hread, ?_⟩
  intro maxMoves fuel
  unfold parseLoop
  by_cases hlt : g.moves.length < maxMoves
  · rw [if_pos hlt, hread]
    simp
  · rw [if_neg hlt]

/-- Witness for C3 at a concrete record with one accepted move. -/
theorem C3_tag_after_moves_rewinds_witness :
    (⟨[], [], .noResult, lc "standard", lc "SF", false, true, [lc "e4"]⟩ :
        GameSt TR).moves ≠ [] ∧
    readItem (⟨[], [], .noResult, lc "standard", lc "SF", false, true,
        [lc "e4"]⟩ : GameSt TR) ⟨lc "standard", none⟩ ('[' :: lc "White") =
      (PgnItem.PgnError,
        ⟨[], [], .noResult, lc "standard", lc "SF", false, true, [lc "e4"]⟩,
        ⟨lc "standard", none⟩, '[' :: lc "White") := by
  refine ⟨by simp, ?_⟩
  exact (C3_tag_after_moves_rewinds TR _ _ (lc "White") (by simp)).2.1

/-! ## Item level lemmas -/

/-- Reading a complete tag item: an opening bracket, clean interior text,
then either the closing bracket or a line break ending the item early. -/
theorem readItem_tag (g : GameSt R) (b : Board R) {inner : List Char}
    (tail : List Char) (hmv : g.moves = [])
    (hcl : ∀ c ∈ inner, c ≠ '[' ∧ c ≠ ']' ∧ c ≠ '\n' ∧ c ≠ '\r')
    {e : Char} (he : e = ']' ∨ e = '\n' ∨ e = '\r') :
    readItem g b ('[' :: (inner ++ e :: tail)) = finishItem g b PgnTag inner tail := by
  unfold readItem
  rw [skipWs_no (by decide)]
  have hm2 : (!g.moves.isEmpty) = false := by simp [hmv]
  rw [hm2]
  simp only [List.length_cons]
  rw [scan_step_lbracket]
  have harith : (inner ++ e :: tail).length + 1 = inner.length + (tail.length + 2) := by
    simp [List.length_append, List.length_cons]
    omega
  rw [harith, scan_run_tag hcl]
  simp only [List.nil_append]
  rcases he with rfl | hnl
  · rw [scan_step_rbracket]
  · rw [scan_step_newline hnl (by simp) (Or.inr rfl)]

/-- Every branch of the post-processing of a Tag item yields a Tag, Empty or
Error item, leaves the move list and the stream untouched. -/
theorem finishItem_tag_shape (g : GameSt R) (b : Board R) (str rest : List Char) :
    ((finishItem g b PgnTag str rest).1 = PgnTag ∨
      (finishItem g b PgnTag str rest).1 = PgnEmpty ∨
      (finishItem g b PgnTag str rest).1 = PgnError) ∧
    (finishItem g b PgnTag str rest).2.1.moves = g.moves ∧
    (finishItem g b PgnTag str rest).2.2.2 = rest := by
  unfold finishItem
  by_cases h0 : trim str = []
  · rw [if_pos h0]
    simp
  · rw [if_neg h0, if_neg (show ¬((PgnTag = PgnMove ∨ PgnTag = PgnMoveNumber) ∧
      (trim str = lc "*" ∨ trim str = lc "1/2-1/2" ∨ trim str = lc "1-0" ∨
       trim str = lc "0-1")) by simp), if_pos rfl]
    dsimp only
    split_ifs <;> simp

/-- Post-processing a Move item with no accumulated text yields Empty. -/
theorem finishItem_empty (g : GameSt R) (b : Board R) (rest : List Char) :
    finishItem g b PgnMove [] rest = (PgnEmpty, g, b, rest) := rfl

/-! ## Claim C5: one bracket pair with a nesting depth counter -/

/-- C5: a bracketed item tracks one bracket pair with a depth counter —
a repeated opening character increments the depth, the matching closer
decrements it and ends the item only at depth zero; in particular the
input (a(b)c) is consumed as one single Comment item that does not stop at
the inner closing parenthesis (pgngame.cpp lines 115-136). -/
theorem C5_bracket_nesting (R : Rules) (g : GameSt R) (b : Board R)
    (h : g.hasTags = true) :
    (∀ rest, readItem g b (lc "(a(b)c)" ++ rest) = (PgnComment, g, b, rest)) ∧
    (∀ (hm : Bool) (cb : Char) (lvl : Int) (str rest : List Char) (fuel : Nat)
       (c : Char), c ≠ nullChar →
       scanLoop true hm (fuel + 1) PgnComment c cb lvl str (c :: rest) =
         scanLoop true hm fuel PgnComment c cb (lvl + 1) str rest) ∧
    (∀ (hm : Bool) (ob cb : Char) (lvl : Int) (str rest : List Char)
       (fuel : Nat), ob ≠ nullChar → cb ≠ ob →
       scanLoop true hm (fuel + 1) PgnComment ob cb lvl str (cb :: rest) =
         if lvl - 1 ≤ 0 then .norm PgnComment str rest
         else scanLoop true hm fuel PgnComment ob cb (lvl - 1) str rest) := by
  obtain ⟨w, bl, res, var, fen, irv, htg, mvs⟩ := g
  simp only at h
  subst h
  refine ⟨fun rest => rfl, fun hm cb lvl str rest fuel c hc => ?_,
    fun hm ob cb lvl str rest fuel hob hne => ?_⟩
  · have hc2 : ¬(c = nullChar) := hc
    simp [scanLoop, hc2]
  · have hob2 : ¬(ob = nullChar) := hob
    have hne2 : ¬(cb = ob) := hne
    simp [scanLoop, hob2, hne2]

/-- Witness for C5 at a concrete record. -/
theorem C5_bracket_nesting_witness :
    (⟨[], [], .noResult, lc "standard", [], false, true, []⟩ :
        GameSt TR).hasTags = true ∧
    readItem (⟨[], [], .noResult, lc "standard", [], false, true, []⟩ :
        GameSt TR) ⟨lc "standard", none⟩ (lc "(a(b)c)" ++ lc " x") =
      (PgnComment, ⟨[], [], .noResult, lc "standard", [], false, true, []⟩,
        ⟨lc "standard", none⟩, lc " x") :=
  ⟨rfl, (C5_bracket_nesting TR _ _ rfl).1 (lc " x")⟩

/-! ## Claim C4: terminator tokens become Result items -/

/-- C4: a Move or Move-Number item whose text is one of the four terminator
strings is returned as a Result item carrying the corresponding result
value, overwriting whatever result the record held before (a mismatch with
an earlier Result tag is only logged), so the record's result reflects the
last value assigned (pgngame.cpp lines 152-161). -/
theorem C4_terminator_result (R : Rules) (g : GameSt R) (b : Board R)
    (tok : List Char) (r : ChessResult) (rest : List Char)
    (hmem : (tok, r) ∈ [(lc "*", ChessResult.noResult),
      (lc "1/2-1/2", ChessResult.draw), (lc "1-0", ChessResult.whiteWins),
      (lc "0-1", ChessResult.blackWins)])
    (h : g.hasTags = true) :
    readItem g b (tok ++ ' ' :: rest) =
      (PgnResult, { g with result := r }, b, rest) := by
  obtain ⟨w, bl, res, var, fen, irv, htg, mvs⟩ := g
  simp only at h
  subst h
  simp only [List.mem_cons, List.not_mem_nil, or_false, Prod.mk.injEq] at hmem
  rcases hmem with ⟨rfl, rfl⟩ | ⟨rfl, rfl⟩ | ⟨rfl, rfl⟩ | ⟨rfl, rfl⟩ <;> rfl

/-- Witness for C4: a terminator after a Result tag with a different value
overwrites it. -/
theorem C4_terminator_result_witness :
    (lc "1-0", ChessResult.whiteWins) ∈ [(lc "*", ChessResult.noResult),
      (lc "1/2-1/2", ChessResult.draw), (lc "1-0", ChessResult.whiteWins),
      (lc "0-1", ChessResult.blackWins)] ∧
    (⟨[], [], .draw, lc "standard", [], false, true, []⟩ :
        GameSt TR).hasTags = true ∧
    readItem (⟨[], [], .draw, lc "standard", [], false, true, []⟩ : GameSt TR)
        ⟨lc "standard", none⟩ (lc "1-0" ++ ' ' :: []) =
      (PgnResult, ⟨[], [], .whiteWins, lc "standard", [], false, true, []⟩,
        ⟨lc "standard", none⟩, []) :=
  ⟨by simp, rfl, C4_terminator_result TR _ _ (lc "1-0") .whiteWins []
    (by simp) rfl⟩

/-! ## Claim C9: a newline terminates every non-comment item -/

/-- C9: any item not classified as a Comment — including a Tag whose
closing bracket has not been read yet — ends at the first carriage return
or line feed, so a tag spanning a line break is cut off at the newline
instead of being scanned to its closing bracket (pgngame.cpp lines 63-64). -/
theorem C9_newline_ends_item (R : Rules) :
    (∀ (ht hm : Bool) (ty : PgnItem) (ob cb : Char) (lvl : Int)
       (str rest : List Char) (fuel : Nat) (c : Char),
       (c = '\n' ∨ c = '\r') → ty ≠ PgnComment → (ht = true ∨ ty = PgnTag) →
       scanLoop ht hm (fuel + 1) ty ob cb lvl str (c :: rest) =
         .norm ty str rest) ∧
    (∀ (g : GameSt R) (b : Board R) (inner tail : List Char),
       g.moves = [] →
       (∀ c ∈ inner, c ≠ '[' ∧ c ≠ ']' ∧ c ≠ '\n' ∧ c ≠ '\r') →
       readItem g b ('[' :: (inner ++ '\n' :: tail)) =
         finishItem g b PgnTag inner tail) :=
  ⟨fun _ _ _ _ _ _ _ _ _ _ hc hty hskip => scan_step_newline hc hty hskip,
   fun g b inner tail hmv hcl =>
     readItem_tag g b tail hmv hcl (Or.inr (Or.inl rfl))⟩

/-- Witness for C9: a tag cut at a newline, with the closing bracket only
on the next line, ends at the newline. -/
theorem C9_newline_ends_item_witness :
    ((initGame TR).moves = []) ∧
    (∀ c ∈ lc "White \x22A", c ≠ '[' ∧ c ≠ ']' ∧ c ≠ '\n' ∧ c ≠ '\r') ∧
    readItem (initGame TR) ⟨lc "standard", none⟩
        ('[' :: (lc "White \x22A" ++ '\n' :: lc "\x22]")) =
      finishItem (initGame TR) ⟨lc "standard", none⟩ PgnTag (lc "White \x22A")
        (lc "\x22]") :=
  ⟨rfl, by decide,
   (C9_newline_ends_item TR).2 (initGame TR) ⟨lc "standard", none⟩
     (lc "White \x22A") (lc "\x22]") rfl (by decide)⟩

/-! ## Claim C6: NAG range checking -/

/-- C6: a NAG item's digits are parsed as an integer; a value above 255 (or
an unparseable one) is a fatal Error that halts the current game's parse,
while an in-range NAG continues parsing with no change to the record
(pgngame.cpp lines 226-235). -/
theorem C6_nag_range (R : Rules) (g : GameSt R) (b : Board R)
    (ds rest : List Char) (hne : ds ≠ [])
    (hdig : ∀ c ∈ ds, c.isDigit = true) (h : g.hasTags = true) :
    (digitsVal ds ≤ 255 →
       readItem g b ('$' :: (ds ++ ' ' :: rest)) = (PgnNag, g, b, rest) ∧
       ∀ (maxMoves fuel : Nat), g.moves.length < maxMoves →
         parseLoop maxMoves (fuel + 1) g b ('$' :: (ds ++ ' ' :: rest)) =
           parseLoop maxMoves fuel g b rest) ∧
    (255 < digitsVal ds →
       readItem g b ('$' :: (ds ++ ' ' :: rest)) = (PgnError, g, b, rest) ∧
       ∀ (maxMoves fuel : Nat), g.moves.length < maxMoves →
         parseLoop maxMoves (fuel + 1) g b ('$' :: (ds ++ ' ' :: rest)) =
           (g, b, rest)) := by
  have hfin : readItem g b ('$' :: (ds ++ ' ' :: rest)) =
      finishItem g b PgnNag ds rest := by
    unfold readItem
    rw [skipWs_no (by decide), h]
    simp only [List.length_cons]
    rw [scan_step_dollar]
    have harith : (ds ++ ' ' :: rest).length + 1 =
        ds.length + (rest.length + 2) := by
      simp [List.length_append, List.length_cons]
      omega
    rw [harith, scan_run_digits hdig (Or.inl rfl)]
    simp only [List.nil_append]
    rw [scan_step_nag_space (by decide)]
  have htrim : trim ds = ds :=
    trim_no_space (fun c hc => digit_not_space (hdig c hc))
  obtain ⟨d, dt, rfl⟩ : ∃ d dt, ds = d :: dt := by
    cases ds with
    | nil => exact absurd rfl hne
    | cons d dt => exact ⟨d, dt, rfl⟩
  have hd := hdig d (by simp)
  have hterm : ¬((PgnNag = PgnMove ∨ PgnNag = PgnMoveNumber) ∧
      (d :: dt = lc "*" ∨ d :: dt = lc "1/2-1/2" ∨
       d :: dt = lc "1-0" ∨ d :: dt = lc "0-1")) := by simp
  have hqto : qtoInt? (d :: dt) = qtoIntCore 1 (d :: dt) := by
    simp [qtoInt?, digit_ne hd (show ('+' : Char).isDigit = false by decide),
      digit_ne hd (show ('-' : Char).isDigit = false by decide)]
  have hall : (d :: dt).all Char.isDigit = true := List.all_eq_true.mpr hdig
  constructor
  · intro hle
    have hread : readItem g b ('$' :: ((d :: dt) ++ ' ' :: rest)) =
        (PgnNag, g, b, rest) := by
      rw [hfin]
      unfold finishItem
      rw [htrim, if_neg (by simp), if_neg hterm, if_neg (by simp),
        if_neg (by simp), if_pos rfl, hqto]
      unfold qtoIntCore
      rw [if_pos ⟨by simp, hall⟩]
      have hrange : -2147483648 ≤ 1 * ((digitsVal (d :: dt) : Int)) ∧
          1 * ((digitsVal (d :: dt) : Int)) ≤ 2147483647 := by
        constructor <;> push_cast <;> omega
      rw [if_pos hrange]
      dsimp only
      rw [if_neg (show ¬(1 * ((digitsVal (d :: dt) : Int)) < 0 ∨
          1 * ((digitsVal (d :: dt) : Int)) > 255) by push_cast; omega)]
    refine ⟨hread, fun maxMoves fuel hlt => ?_⟩
    rw [parseLoop, if_pos hlt, hread]
    simp
  · intro hgt
    have hread : readItem g b ('$' :: ((d :: dt) ++ ' ' :: rest)) =
        (PgnError, g, b, rest) := by
      rw [hfin]
      unfold finishItem
      rw [htrim, if_neg (by simp), if_neg hterm, if_neg (by simp),
        if_neg (by simp), if_pos rfl, hqto]
      unfold qtoIntCore
      rw [if_pos ⟨by simp, hall⟩]
      by_cases hbig : 1 * ((digitsVal (d :: dt) : Int)) ≤ 2147483647
      · rw [if_pos ⟨by push_cast; omega, hbig⟩]
        dsimp only
        rw [if_pos (show 1 * ((digitsVal (d :: dt) : Int)) < 0 ∨
            1 * ((digitsVal (d :: dt) : Int)) > 255 by push_cast; omega)]
      · rw [if_neg (fun hx => hbig hx.2)]
    refine ⟨hread, fun maxMoves fuel hlt => ?_⟩
    rw [parseLoop, if_pos hlt, hread]
    simp

/-- Witness for C6: the out-of-range NAG 300 yields an Error and the
in-range NAG 30 is accepted without changing the record. -/
theorem C6_nag_range_witness :
    (lc "300" ≠ [] ∧ (∀ c ∈ lc "300", c.isDigit = true) ∧
     (⟨[], [], .noResult, lc "standard", [], false, true, []⟩ :
        GameSt TR).hasTags = true ∧ 255 < digitsVal (lc "300") ∧
     readItem (⟨[], [], .noResult, lc "standard", [], false, true, []⟩ :
        GameSt TR) ⟨lc "standard", none⟩ ('$' :: (lc "300" ++ ' ' :: lc "e4")) =
       (PgnError, ⟨[], [], .noResult, lc "standard", [], false, true, []⟩,
         ⟨lc "standard", none⟩, lc "e4")) ∧
    (digitsVal (lc "30") ≤ 255 ∧
     readItem (⟨[], [], .noResult, lc "standard", [], false, true, []⟩ :
        GameSt TR) ⟨lc "standard", none⟩ ('$' :: (lc "30" ++ ' ' :: lc "e4")) =
       (PgnNag, ⟨[], [], .noResult, lc "standard", [], false, true, []⟩,
         ⟨lc "standard", none⟩, lc "e4")) :=
  ⟨⟨by decide, by decide, rfl, by decide,
    ((C6_nag_range TR _ _ (lc "300") (lc "e4") (by decide) (by decide)
      rfl).2 (by decide)).1⟩,
   ⟨by decide,
    ((C6_nag_range TR _ _ (lc "30") (lc "e4") (by decide) (by decide)
      rfl).1 (by decide)).1⟩⟩

/-! ## Claim C10: before any tag, the scanner yields only Tag, Empty or Error -/

/-- While no tags have been seen, the scan is either still skipping (pristine
state) or inside a tag; it can therefore only end as an Error, a Tag item,
or an empty Move item. -/
theorem scan_noTags (hm : Bool) : ∀ (fuel : Nat) (s : List Char)
    (ty : PgnItem) (ob cb : Char) (lvl : Int) (str : List Char),
    (ty = PgnMove ∧ str = [] ∧ ob = nullChar ∧ cb = nullChar ∧ lvl = 0) ∨
      (ty = PgnTag ∧ ob = '[' ∧ cb = ']') →
    (∃ r, scanLoop false hm fuel ty ob cb lvl str s = .err r) ∨
    (∃ s2 r, scanLoop false hm fuel ty ob cb lvl str s = .norm PgnTag s2 r) ∨
    (∃ r, scanLoop false hm fuel ty ob cb lvl str s = .norm PgnMove [] r) := by
  intro fuel
  induction fuel with
  | zero =>
    intro s ty ob cb lvl str hinv
    rcases hinv with ⟨rfl, rfl, rfl, rfl, rfl⟩ | ⟨rfl, rfl, rfl⟩
    · exact Or.inr (Or.inr ⟨s, rfl⟩)
    · exact Or.inr (Or.inl ⟨str, s, rfl⟩)
  | succ fuel ih =>
    intro s ty ob cb lvl str hinv
    cases s with
    | nil =>
      rcases hinv with ⟨rfl, rfl, rfl, rfl, rfl⟩ | ⟨rfl, rfl, rfl⟩
      · exact Or.inr (Or.inr ⟨[], rfl⟩)
      · exact Or.inr (Or.inl ⟨str, [], rfl⟩)
    | cons c rest =>
      rcases hinv with ⟨rfl, rfl, rfl, rfl, rfl⟩ | ⟨rfl, rfl, rfl⟩
      · by_cases hc : c = '['
        · subst hc
          cases hm
          · rw [scan_step_lbracket]
            exact ih rest PgnTag '[' ']' 1 [] (Or.inr ⟨rfl, rfl, rfl⟩)
          · rw [scanLoop, if_neg (by simp), if_neg (by decide),
              if_neg (by decide), if_neg (by decide), if_neg (by decide),
              if_neg (by decide)]
            rw [if_pos ⟨by decide, rfl, rfl⟩]
            exact Or.inl ⟨'[' :: rest, rfl⟩
        · rw [scanLoop, if_pos ⟨by simp, by simp, hc⟩]
          exact ih rest PgnMove nullChar nullChar 0 []
            (Or.inl ⟨rfl, rfl, rfl, rfl, rfl⟩)
      · by_cases hnl : c = '\n' ∨ c = '\r'
        · rw [scan_step_newline hnl (by simp) (Or.inr rfl)]
          exact Or.inr (Or.inl ⟨str, rest, rfl⟩)
        · by_cases hob : c = '['
          · subst hob
            rw [show scanLoop false hm (fuel + 1) PgnTag '[' ']' lvl str
                ('[' :: rest) = scanLoop false hm fuel PgnTag '[' ']' (lvl + 1)
                str rest by simp [scanLoop, nullChar]]
            exact ih rest PgnTag '[' ']' (lvl + 1) str (Or.inr ⟨rfl, rfl, rfl⟩)
          · by_cases hcb : c = ']'
            · subst hcb
              by_cases hlvl : lvl - 1 ≤ 0
              · rw [show scanLoop false hm (fuel + 1) PgnTag '[' ']' lvl str
                    (']' :: rest) = .norm PgnTag str rest by
                  simp [scanLoop, nullChar, hlvl]]
                exact Or.inr (Or.inl ⟨str, rest, rfl⟩)
              · rw [show scanLoop false hm (fuel + 1) PgnTag '[' ']' lvl str
                    (']' :: rest) = scanLoop false hm fuel PgnTag '[' ']'
                    (lvl - 1) str rest by simp [scanLoop, nullChar, hlvl]]
                exact ih rest PgnTag '[' ']' (lvl - 1) str (Or.inr ⟨rfl, rfl, rfl⟩)
            · have hob2 : ¬(c = '[') := hob
              have hcb2 : ¬(c = ']') := hcb
              rw [show scanLoop false hm (fuel + 1) PgnTag '[' ']' lvl str
                  (c :: rest) = scanLoop false hm fuel PgnTag '[' ']' lvl
                  (str ++ [c]) rest by
                simp [scanLoop, nullChar, hnl, hob2, hcb2]]
              exact ih rest PgnTag '[' ']' lvl (str ++ [c]) (Or.inr ⟨rfl, rfl, rfl⟩)

/-- C10: while `hasTags` is false the scanner skips everything except a tag
bracket, so it can only return a Tag item, an Empty item, or an Error from
tag processing, never a Move item — the move handler's no-tags error branch
is unreachable, and the record's moves are untouched (pgngame.cpp lines
61-62 and 198-204). -/
theorem C10_no_move_before_tags (R : Rules) (g : GameSt R) (b : Board R)
    (s : List Char) (h : g.hasTags = false) :
    ((readItem g b s).1 = PgnTag ∨ (readItem g b s).1 = PgnEmpty ∨
      (readItem g b s).1 = PgnError) ∧
    (readItem g b s).2.1.moves = g.moves ∧
    (∀ s2 r, scanLoop false (!g.moves.isEmpty) ((skipWs s).length + 1)
        PgnMove nullChar nullChar 0 [] (skipWs s) = .norm PgnMove s2 r →
        s2 = []) := by
  have hout := scan_noTags (!g.moves.isEmpty) ((skipWs s).length + 1)
    (skipWs s) PgnMove nullChar nullChar 0 []
    (Or.inl ⟨rfl, rfl, rfl, rfl, rfl⟩)
  unfold readItem
  rw [h]
  rcases hout with ⟨r, he⟩ | ⟨s2, r, he⟩ | ⟨r, he⟩ <;> rw [he]
  · exact ⟨Or.inr (Or.inr rfl), rfl, fun s3 r3 he3 => by cases he3⟩
  · obtain ⟨h1, h2, _⟩ := finishItem_tag_shape g b s2 r
    exact ⟨h1, h2, fun s3 r3 he3 => by cases he3⟩
  · refine ⟨?_, ?_, fun s3 r3 he3 => by cases he3; rfl⟩
    · dsimp only
      rw [finishItem_empty]
      exact Or.inr (Or.inl rfl)
    · dsimp only
      rw [finishItem_empty]

/-- Witness for C10 at a concrete tagless record on a stream starting with
move text: the text is skipped and no Move item is produced. -/
theorem C10_no_move_before_tags_witness :
    (initGame TR).hasTags = false ∧
    ((readItem (initGame TR) ⟨lc "standard", none⟩ (lc "1. e4 e5")).1 = PgnTag ∨
     (readItem (initGame TR) ⟨lc "standard", none⟩ (lc "1. e4 e5")).1 = PgnEmpty ∨
     (readItem (initGame TR) ⟨lc "standard", none⟩ (lc "1. e4 e5")).1 = PgnError) ∧
    (readItem (initGame TR) ⟨lc "standard", none⟩ (lc "1. e4 e5")).2.1.moves =
      (initGame TR).moves :=
  ⟨rfl, (C10_no_move_before_tags TR (initGame TR) ⟨lc "standard", none⟩
      (lc "1. e4 e5") rfl).1,
    (C10_no_move_before_tags TR (initGame TR) ⟨lc "standard", none⟩
      (lc "1. e4 e5") rfl).2.1⟩

/-! ## Claim C1: moves form a legal continuation -/

theorem chainOk_append (p : R.Pos) (ms : List R.Mv) (m : R.Mv) :
    chainOk R p (ms ++ [m]) =
      (chainOk R p ms && R.isLegalMove (chainPos R p ms) m) := by
  induction ms generalizing p with
  | nil => simp [chainOk, chainPos]
  | cons a l ih =>
    simp only [List.cons_append, chainOk, chainPos, List.append_eq, ih,
      Bool.and_assoc]

theorem chainPos_append (p : R.Pos) (ms : List R.Mv) (m : R.Mv) :
    chainPos R p (ms ++ [m]) = R.makeMove (chainPos R p ms) m := by
  induction ms generalizing p with
  | nil => simp [chainPos]
  | cons a l ih =>
    simp only [List.cons_append, chainPos, List.append_eq, ih]

theorem legalCont_of_inv {g : GameSt R} {b : Board R}
    (h : ParseInv R g b) : LegalCont R g.fen g.moves := by
  by_cases hf : g.fen = []
  · exact Or.inl (h.1 hf)
  · obtain ⟨p, hd, hc, _⟩ := h.2 hf
    exact Or.inr ⟨p, hd, hc⟩

set_option maxHeartbeats 2000000 in
/-- With at least one stored move, the scanning loop can produce a Tag item
only if it was already scanning one: the tag-opening bracket path returns
the rewind Error instead. -/
theorem scan_norm_tag_hm (ht : Bool) : ∀ (fuel : Nat) (s : List Char)
    (ty : PgnItem) (ob cb : Char) (lvl : Int) (str s2 r : List Char),
    scanLoop ht true fuel ty ob cb lvl str s = .norm PgnTag s2 r →
    ty = PgnTag := by
  intro fuel
  induction fuel with
  | zero =>
    intro s ty ob cb lvl str s2 r he
    simp only [scanLoop] at he
    cases he
    rfl
  | succ fuel ih =>
    intro s ty ob cb lvl str s2 r he
    cases s with
    | nil =>
      simp only [scanLoop] at he
      cases he
      rfl
    | cons c rest =>
      rw [scanLoop] at he
      by_cases hA : ¬ht = true ∧ ty ≠ PgnTag ∧ c ≠ '['
      · rw [if_pos hA] at he
        exact ih _ _ _ _ _ _ _ _ he
      · rw [if_neg hA] at he
        by_cases hB : (c = '\n' ∨ c = '\r') ∧ ty ≠ PgnComment
        · rw [if_pos hB] at he
          cases he
          rfl
        · rw [if_neg hB] at he
          by_cases hC : ob = nullChar ∧ str = [] ∧ c = ';'
          · rw [if_pos hC] at he
            cases he
          · rw [if_neg hC] at he
            by_cases hD : ob = nullChar ∧ str = [] ∧ c = '%'
            · rw [if_pos hD] at he
              exact ih _ _ _ _ _ _ _ _ he
            · rw [if_neg hD] at he
              by_cases hE : ob = nullChar ∧ str = [] ∧ c = '.'
              · rw [if_pos hE] at he
                exact ih _ _ _ _ _ _ _ _ he
              · rw [if_neg hE] at he
                by_cases hF : ob = nullChar ∧ str = [] ∧ c = '$'
                · rw [if_pos hF] at he
                  exact absurd (ih _ _ _ _ _ _ _ _ he) (by decide)
                · rw [if_neg hF] at he
                  dsimp only at he
                  by_cases hG : ob = nullChar ∧ c = '['
                  · rw [if_pos ⟨hG.1, hG.2, rfl⟩] at he
                    cases he
                  · rw [if_neg (fun hx => hG ⟨hx.1, hx.2.1⟩)] at he
                    generalize hq : (if ob = nullChar then
                        if c = '[' then ((PgnTag, ']') : PgnItem × Char)
                        else if c = '(' then (PgnComment, ')')
                        else if c = '{' then (PgnComment, '}')
                        else (if ob = nullChar ∧ str = [] ∧ c.isDigit = true ∧
                            ty = PgnMove then PgnMoveNumber else ty, cb)
                      else (if ob = nullChar ∧ str = [] ∧ c.isDigit = true ∧
                          ty = PgnMove then PgnMoveNumber else ty, cb)) = q at he
                    have hty2 : q.1 = PgnTag → ty = PgnTag := by
                      intro hx
                      rw [← hq] at hx
                      by_cases e0 : ob = nullChar
                      · rw [if_pos e0] at hx
                        rw [if_neg (fun hc => hG ⟨e0, hc⟩)] at hx
                        by_cases e2 : c = '('
                        · rw [if_pos e2] at hx
                          exact absurd hx (by decide)
                        · rw [if_neg e2] at hx
                          by_cases e3 : c = '{'
                          · rw [if_pos e3] at hx
                            exact absurd hx (by decide)
                          · rw [if_neg e3] at hx
                            by_cases e4 : ob = nullChar ∧ str = [] ∧
                                c.isDigit = true ∧ ty = PgnMove
                            · rw [if_pos e4] at hx
                              exact absurd hx (by simp)
                            · rw [if_neg e4] at hx
                              exact hx
                      · rw [if_neg e0] at hx
                        by_cases e4 : ob = nullChar ∧ str = [] ∧
                            c.isDigit = true ∧ ty = PgnMove
                        · rw [if_pos e4] at hx
                          exact absurd hx (by simp)
                        · rw [if_neg e4] at hx
                          exact hx
                    split_ifs at he <;>
                      first
                        | exact hty2 (ih _ _ _ _ _ _ _ _ he)
                        | (injection he with hx hy hz; exact hty2 hx)

/-- One readItem call preserves the invariant on every non-error outcome,
and even an error outcome leaves the record a legal continuation. -/
theorem readItem_inv (hWF : RulesWF R) (g : GameSt R) (b : Board R)
    (ty : PgnItem) (str rest : List Char) (hInv : ParseInv R g b)
    (htag : ty = PgnTag → g.moves = []) :
    ((finishItem g b ty str rest).1 ≠ PgnError →
      ParseInv R (finishItem g b ty str rest).2.1
        (finishItem g b ty str rest).2.2.1) ∧
    LegalCont R (finishItem g b ty str rest).2.1.fen
      (finishItem g b ty str rest).2.1.moves := by
  unfold finishItem
  by_cases h0 : trim str = []
  · rw [if_pos h0]
    exact ⟨fun _ => hInv, legalCont_of_inv hInv⟩
  · rw [if_neg h0]
    by_cases h1 : (ty = PgnMove ∨ ty = PgnMoveNumber) ∧
        (trim str = lc "*" ∨ trim str = lc "1/2-1/2" ∨ trim str = lc "1-0" ∨
         trim str = lc "0-1")
    · rw [if_pos h1]
      exact ⟨fun _ => hInv, legalCont_of_inv hInv⟩
    · rw [if_neg h1]
      by_cases h2 : ty = PgnTag
      · rw [if_pos h2]
        have hmv := htag h2
        dsimp only
        set param := removeQuotes (section1 (trim str)) with hparam
        split_ifs with t1 t2 t3 t4 t5 t6 t7
        · exact ⟨fun _ => hInv, legalCont_of_inv hInv⟩
        · exact ⟨fun _ => hInv, legalCont_of_inv hInv⟩
        · exact ⟨fun _ => hInv, legalCont_of_inv hInv⟩
        · exact ⟨fun hne => absurd rfl hne, Or.inl hmv⟩
        · exact ⟨fun _ => ⟨hInv.1, hInv.2⟩, legalCont_of_inv hInv⟩
        · refine ⟨fun _ => ⟨fun hf => hmv, fun hf => ?_⟩, Or.inl hmv⟩
          obtain ⟨p, hp⟩ : ∃ p, R.decodeFen param = some p := by
            unfold Board.setBoard at t7
            cases hd : R.decodeFen param with
            | some p => exact ⟨p, rfl⟩
            | none => rw [hd] at t7; simp at t7
          refine ⟨p, hp, by simp [hmv, chainOk], ?_⟩
          unfold Board.setBoard
          rw [hp]
          simp [hmv, chainPos]
        · exact ⟨fun hne => absurd rfl hne, Or.inl hmv⟩
        · exact ⟨fun _ => hInv, legalCont_of_inv hInv⟩
      · rw [if_neg h2]
        by_cases h3 : ty = PgnMove
        · rw [if_pos h3]
          by_cases h4 : ¬g.hasTags = true
          · rw [if_pos h4]
            exact ⟨fun hne => absurd rfl hne, legalCont_of_inv hInv⟩
          · rw [if_neg h4]
            dsimp only
            by_cases h5 : g.fen = []
            · rw [if_pos h5]
              have hmv := hInv.1 h5
              obtain ⟨hfne, p0, hp0⟩ := hWF b.var
              have hset : (b.setBoard (R.startingFen b.var)).2 =
                  { b with pos := some p0 } := by
                unfold Board.setBoard
                rw [hp0]
              rw [hset]
              have hmfs : Board.moveFromString
                  ({ b with pos := some p0 } : Board R) (trim str) =
                  R.moveFromStr p0 (trim str) := rfl
              rw [hmfs]
              cases hm : R.moveFromStr p0 (trim str) with
              | none =>
                exact ⟨fun hne => absurd rfl hne, Or.inl (by simp [hmv])⟩
              | some m =>
                dsimp only
                by_cases hleg : Board.isLegal
                    ({ b with pos := some p0 } : Board R) m = true
                · rw [if_pos hleg]
                  have hlg : R.isLegalMove p0 m = true := hleg
                  refine ⟨fun _ => ⟨fun hf => absurd hf hfne, fun _ => ?_⟩, ?_⟩
                  · refine ⟨p0, hp0, ?_, ?_⟩
                    · simp [hmv, chainOk, hlg]
                    · simp [hmv, Board.apply, chainPos]
                  · exact Or.inr ⟨p0, hp0, by simp [hmv, chainOk, hlg]⟩
                · rw [if_neg hleg]
                  exact ⟨fun hne => absurd rfl hne, Or.inl (by simp [hmv])⟩
            · rw [if_neg h5]
              obtain ⟨p, hdec, hchain, hpos⟩ := hInv.2 h5
              have hmfs : Board.moveFromString b (trim str) =
                  R.moveFromStr (chainPos R p g.moves) (trim str) := by
                unfold Board.moveFromString
                rw [hpos]
              rw [hmfs]
              cases hm : R.moveFromStr (chainPos R p g.moves) (trim str) with
              | none => exact ⟨fun hne => absurd rfl hne, legalCont_of_inv hInv⟩
              | some m =>
                dsimp only
                by_cases hleg : Board.isLegal b m = true
                · rw [if_pos hleg]
                  have hlg : R.isLegalMove (chainPos R p g.moves) m = true := by
                    unfold Board.isLegal at hleg
                    rw [hpos] at hleg
                    exact hleg
                  have hco : chainOk R p (g.moves ++ [m]) = true := by
                    rw [chainOk_append, hchain, hlg]
                    rfl
                  refine ⟨fun _ => ⟨fun hf => absurd hf h5, fun _ => ?_⟩, ?_⟩
                  · refine ⟨p, hdec, hco, ?_⟩
                    unfold Board.apply
                    rw [hpos]
                    simp [chainPos_append]
                  · exact Or.inr ⟨p, hdec, hco⟩
                · rw [if_neg hleg]
                  exact ⟨fun hne => absurd rfl hne, legalCont_of_inv hInv⟩
        · rw [if_neg h3]
          by_cases h6 : ty = PgnNag
          · rw [if_pos h6]
            cases qtoInt? (trim str) with
            | none => exact ⟨fun hne => absurd rfl hne, legalCont_of_inv hInv⟩
            | some n =>
              dsimp only
              by_cases h7 : n < 0 ∨ n > 255
              · rw [if_pos h7]
                exact ⟨fun hne => absurd rfl hne, legalCont_of_inv hInv⟩
              · rw [if_neg h7]
                exact ⟨fun _ => hInv, legalCont_of_inv hInv⟩
          · rw [if_neg h6]
            exact ⟨fun _ => hInv, legalCont_of_inv hInv⟩

/-- readItem preserves the invariant (and a legal continuation even through
errors) for any stream. -/
theorem readItem_preserves (hWF : RulesWF R) (g : GameSt R) (b : Board R)
    (s : List Char) (hInv : ParseInv R g b) :
    ((readItem g b s).1 ≠ PgnError →
      ParseInv R (readItem g b s).2.1 (readItem g b s).2.2.1) ∧
    LegalCont R (readItem g b s).2.1.fen (readItem g b s).2.1.moves := by
  unfold readItem
  cases hsc : scanLoop g.hasTags (!g.moves.isEmpty) ((skipWs s).length + 1)
      PgnMove nullChar nullChar 0 [] (skipWs s) with
  | err r => exact ⟨fun _ => hInv, legalCont_of_inv hInv⟩
  | norm ty str rest =>
    refine readItem_inv hWF g b ty str rest hInv (fun hty => ?_)
    subst hty
    cases hmv : g.moves with
    | nil => rfl
    | cons m ms =>
      have hb : (!g.moves.isEmpty) = true := by simp [hmv]
      rw [hb] at hsc
      exact absurd (scan_norm_tag_hm g.hasTags _ _ _ _ _ _ _ _ _ hsc)
        (by simp)

/-- The invariant ignores the hasTags flag. -/
theorem parseInv_hasTags {g : GameSt R} {b : Board R} (h : ParseInv R g b) :
    ParseInv R { g with hasTags := true } b := h

/-- The builder loop turns the invariant into a legal continuation of the
final record, whatever ends it. -/
theorem parseLoop_legal (hWF : RulesWF R) (maxMoves : Nat) :
    ∀ (fuel : Nat) (g : GameSt R) (b : Board R) (s : List Char),
    ParseInv R g b →
    LegalCont R (parseLoop maxMoves fuel g b s).1.fen
      (parseLoop maxMoves fuel g b s).1.moves := by
  intro fuel
  induction fuel with
  | zero => intro g b s hInv; exact legalCont_of_inv hInv
  | succ fuel ih =>
    intro g b s hInv
    rw [parseLoop]
    by_cases hlt : g.moves.length < maxMoves
    · rw [if_pos hlt]
      obtain ⟨hpres, hleg⟩ := readItem_preserves hWF g b s hInv
      dsimp only
      by_cases he : (readItem g b s).1 = PgnError
      · rw [if_pos he]
        exact hleg
      · rw [if_neg he]
        have hInv2 := hpres he
        by_cases ht : (readItem g b s).1 = PgnTag
        · rw [if_pos ht]
          exact ih _ _ _ (parseInv_hasTags hInv2)
        · rw [if_neg ht]
          by_cases hr : (readItem g b s).1 = PgnResult ∨
              (readItem g b s).1 = PgnEmpty
          · rw [if_pos hr]
            exact hleg
          · rw [if_neg hr]
            exact ih _ _ _ hInv2
    · rw [if_neg hlt]
      exact legalCont_of_inv hInv

/-- C1: every record produced by parsing a stream carries a legal move
sequence — each prefix of `moves` applied to the starting position yields a
position in which the next move is legal — and an illegal move aborts the
parse at once: the move handler returns an Error leaving the record
unchanged, and the builder loop stops on an Error item
(pgngame.cpp lines 214-224 and 246-268). -/
theorem C1_legal_continuation (R : Rules) (hWF : RulesWF R)
    (fv : Option R.Var) (b : Board R) (maxMoves : Nat) (s : List Char) :
    LegalCont R (pgnParse R fv b maxMoves s).1.fen
      (pgnParse R fv b maxMoves s).1.moves ∧
    (∀ (g : GameSt R) (b2 : Board R) (str rest : List Char) (p : R.Pos)
       (m : R.Mv), g.hasTags = true → g.fen ≠ [] → b2.pos = some p →
       trim str ≠ [] →
       ¬(trim str = lc "*" ∨ trim str = lc "1/2-1/2" ∨
         trim str = lc "1-0" ∨ trim str = lc "0-1") →
       R.moveFromStr p (trim str) = some m → R.isLegalMove p m = false →
       finishItem g b2 PgnMove str rest = (PgnError, g, b2, rest)) ∧
    (∀ (fuel maxM : Nat) (g : GameSt R) (b2 : Board R) (s2 : List Char),
       g.moves.length < maxM → (readItem g b2 s2).1 = PgnError →
       parseLoop maxM (fuel + 1) g b2 s2 = (readItem g b2 s2).2) := by
  refine ⟨?_, ?_, ?_⟩
  · have hInit : ∀ (g0 : GameSt R) (b0 : Board R), g0.fen = [] →
        g0.moves = [] → ParseInv R g0 b0 :=
      fun g0 b0 hf hm => ⟨fun _ => hm, fun hne => absurd hf hne⟩
    unfold pgnParse
    cases fv with
    | some v => exact parseLoop_legal hWF maxMoves _ _ _ _ (hInit _ _ rfl rfl)
    | none => exact parseLoop_legal hWF maxMoves _ _ _ _ (hInit _ _ rfl rfl)
  · intro g b2 str rest p m htg hfen hpos htr hterm hmfs hill
    unfold finishItem
    rw [if_neg (by simpa using htr), if_neg (by simp [hterm]),
      if_neg (by simp), if_pos rfl, if_neg (by simp [htg])]
    dsimp only
    rw [if_neg hfen]
    have hmv : Board.moveFromString b2 (trim str) = some m := by
      unfold Board.moveFromString
      rw [hpos]
      exact hmfs
    rw [hmv]
    have hlegF : Board.isLegal b2 m = false := by
      unfold Board.isLegal
      rw [hpos]
      exact hill
    dsimp only
    rw [if_neg (by simp [hlegF])]
  · intro fuel maxM g b2 s2 hlt he
    rw [parseLoop, if_pos hlt]
    dsimp only
    rw [if_pos he]

/-- Witness for C1 on a concrete stream with a tag, a move-number, two moves
and a terminator. -/
theorem C1_legal_continuation_witness :
    RulesWF TR ∧
    LegalCont TR
      (pgnParse TR none ⟨lc "standard", none⟩ 100
        (lc "[White \x22A\x22] 1. e4 e5 1-0")).1.fen
      (pgnParse TR none ⟨lc "standard", none⟩ 100
        (lc "[White \x22A\x22] 1. e4 e5 1-0")).1.moves :=
  ⟨fun v => ⟨by show lc "SF" ≠ []; decide, lc "SF", rfl⟩,
   (C1_legal_continuation TR
     (fun v => ⟨by show lc "SF" ≠ []; decide, lc "SF", rfl⟩) none
     ⟨lc "standard", none⟩ 100 (lc "[White \x22A\x22] 1. e4 e5 1-0")).1⟩

/-! ## Claim C8: Variant and FEN tag emission conditions -/

theorem natStrAux_digits : ∀ (fuel n : Nat), ∀ c ∈ natStrAux fuel n,
    c.isDigit = true := by
  intro fuel
  induction fuel with
  | zero => intro n c hc; simp [natStrAux] at hc
  | succ fuel ih =>
    intro n c hc
    rw [natStrAux] at hc
    by_cases hn : n < 10
    · rw [if_pos hn] at hc
      simp only [List.mem_singleton] at hc
      subst hc
      interval_cases n <;> decide
    · rw [if_neg hn] at hc
      rcases List.mem_append.mp hc with hc | hc
      · exact ih _ _ hc
      · simp only [List.mem_singleton] at hc
        subst hc
        have hm : n % 10 < 10 := Nat.mod_lt _ (by omega)
        generalize hmm : n % 10 = m at hm ⊢
        interval_cases m <;> decide

theorem digits_ne {t u : List Char} (hd : ∀ c ∈ t, c.isDigit = true)
    (hu : '[' ∈ u) : t ≠ u := by
  intro he
  subst he
  exact absurd (hd '[' hu) (by decide)

theorem result_str_ne (r : ChessResult) :
    r.toSimpleStr ≠ lc "[Variant \x22" ∧ r.toSimpleStr ≠ lc "[FEN \x22" ∧
    r.toStr ≠ lc "[Variant \x22" ∧ r.toStr ≠ lc "[FEN \x22" := by
  cases r <;> exact ⟨by decide, by decide, by decide, by decide⟩

/-- No chunk of the move section equals a string containing an opening
bracket, provided the engine's move renderings never do. -/
theorem movesOps_not_mem {lit : List Char} (hbr : '[' ∈ lit)
    (hmv : ∀ (p : R.Pos) (m : R.Mv), R.moveToStr p m ≠ lit) :
    ∀ (ms : List R.Mv) (b : Board R) (i : Nat), lit ∉ movesOps b i ms := by
  intro ms
  induction ms with
  | nil => intro b i h; simp [movesOps] at h
  | cons m tl ih =>
    intro b i h
    rw [movesOps] at h
    rcases List.mem_append.mp h with h1 | hrec
    · rcases List.mem_append.mp h1 with h2 | hc
      · rcases List.mem_append.mp h2 with ha | hb
        · by_cases h8 : i % 8 = 0
          · rw [if_pos h8] at ha
            simp only [List.mem_singleton] at ha
            subst ha
            exact absurd hbr (by decide)
          · rw [if_neg h8] at ha
            exact absurd ha (List.not_mem_nil _)
        · by_cases h2 : i % 2 = 0
          · rw [if_pos h2] at hb
            simp only [List.mem_cons, List.not_mem_nil, or_false] at hb
            rcases hb with hb | hb
            · exact absurd hb.symm
                (digits_ne (fun c hc => natStrAux_digits _ _ c hc) hbr)
            · subst hb
              exact absurd hbr (by decide)
          · rw [if_neg h2] at hb
            exact absurd hb (List.not_mem_nil _)
      · simp only [List.mem_cons, List.not_mem_nil, or_false] at hc
        rcases hc with hc | hc
        · rcases hhp : b.pos with _ | p
          · have hre : b.render m = [] := by
              unfold Board.render
              rw [hhp]
            rw [hre] at hc
            subst hc
            simp at hbr
          · have hre : b.render m = R.moveToStr p m := by
              unfold Board.render
              rw [hhp]
            rw [hre] at hc
            exact absurd hc.symm (hmv p m)
        · subst hc
          exact absurd hbr (by decide)
    · exact ih _ _ hrec

/-- C8: the writer emits a Variant tag exactly when the record's variant
differs from standard, and a FEN tag exactly when the variant is random or
the starting position differs from the variant's default; in particular a
standard record with the default position omits both tags and a random
record always emits FEN (pgngame.cpp lines 286-289).  Emission is read off
the sequence of stream insertions; the hypotheses rule out field values
that coincide with the tag-opening literals. -/
theorem C8_variant_fen_emission (R : Rules) (g : GameSt R) (today : List Char)
    (hT : g.hasTags = true)
    (ht1 : today ≠ lc "[Variant \x22") (ht2 : today ≠ lc "[FEN \x22")
    (hw1 : g.whitePlayer ≠ lc "[Variant \x22")
    (hw2 : g.whitePlayer ≠ lc "[FEN \x22")
    (hb1 : g.blackPlayer ≠ lc "[Variant \x22")
    (hb2 : g.blackPlayer ≠ lc "[FEN \x22")
    (hf1 : g.fen ≠ lc "[Variant \x22") (hf2 : g.fen ≠ lc "[FEN \x22")
    (hv2 : R.varToStr g.variant ≠ lc "[FEN \x22")
    (hm1 : ∀ (p : R.Pos) (m : R.Mv), R.moveToStr p m ≠ lc "[Variant \x22")
    (hm2 : ∀ (p : R.Pos) (m : R.Mv), R.moveToStr p m ≠ lc "[FEN \x22") :
    (lc "[Variant \x22" ∈ writeOps g today ↔ g.variant ≠ R.standard) ∧
    (lc "[FEN \x22" ∈ writeOps g today ↔
      (R.isRandom g.variant = true ∨ g.fen ≠ R.startingFen g.variant)) := by
  have hTn : ¬(¬g.hasTags = true) := by simp [hT]
  have hmo1 := movesOps_not_mem (R := R)
    (show '[' ∈ lc "[Variant \x22" by decide) hm1 g.moves
    ((Board.mk g.variant none).setBoard g.fen).2 0
  have hmo2 := movesOps_not_mem (R := R)
    (show '[' ∈ lc "[FEN \x22" by decide) hm2 g.moves
    ((Board.mk g.variant none).setBoard g.fen).2 0
  have hr := result_str_ne g.result
  have l1 : lc "[Variant \x22" ≠ lc "[Date \x22" := by decide
  have l2 : lc "[Variant \x22" ≠ lc "\x22]\n" := by decide
  have l3 : lc "[Variant \x22" ≠ lc "[White \x22" := by decide
  have l4 : lc "[Variant \x22" ≠ lc "[Black \x22" := by decide
  have l5 : lc "[Variant \x22" ≠ lc "[Result \x22" := by decide
  have l6 : lc "[Variant \x22" ≠ lc "[FEN \x22" := by decide
  have l7 : lc "[Variant \x22" ≠ lc "\n\n" := by decide
  have k1 : lc "[FEN \x22" ≠ lc "[Date \x22" := by decide
  have k2 : lc "[FEN \x22" ≠ lc "\x22]\n" := by decide
  have k3 : lc "[FEN \x22" ≠ lc "[White \x22" := by decide
  have k4 : lc "[FEN \x22" ≠ lc "[Black \x22" := by decide
  have k5 : lc "[FEN \x22" ≠ lc "[Result \x22" := by decide
  have k6 : lc "[FEN \x22" ≠ lc "[Variant \x22" := by decide
  have k7 : lc "[FEN \x22" ≠ lc "\n\n" := by decide
  constructor
  · constructor
    · intro hmem
      by_contra hv
      rw [writeOps, if_neg hTn,
        if_neg (show ¬(g.variant ≠ R.standard) by simp [hv])] at hmem
      by_cases hf : R.isRandom g.variant = true ∨ g.fen ≠ R.startingFen g.variant
      · rw [if_pos hf] at hmem
        simp only [List.mem_append, List.mem_cons, List.not_mem_nil,
          or_false, List.append_nil, List.nil_append] at hmem
        rcases hmem with ((h | h) | h) | h
        · revert h
          simp [Ne.symm ht1, Ne.symm hw1, Ne.symm hb1, Ne.symm hr.1,
            l1, l2, l3, l4, l5]
        · revert h
          simp [Ne.symm hf1, l2, l6]
        · exact hmo1 h
        · revert h
          simp [Ne.symm hr.2.2.1, l7]
      · rw [if_neg hf] at hmem
        simp only [List.mem_append, List.mem_cons, List.not_mem_nil,
          or_false, List.append_nil, List.nil_append] at hmem
        rcases hmem with (h | h) | h
        · revert h
          simp [Ne.symm ht1, Ne.symm hw1, Ne.symm hb1, Ne.symm hr.1,
            l1, l2, l3, l4, l5]
        · exact hmo1 h
        · revert h
          simp [Ne.symm hr.2.2.1, l7]
    · intro hv
      rw [writeOps, if_neg hTn, if_pos hv]
      simp
  · constructor
    · intro hmem
      by_contra hf
      rw [writeOps, if_neg hTn, if_neg hf] at hmem
      by_cases hv : g.variant ≠ R.standard
      · rw [if_pos hv] at hmem
        simp only [List.mem_append, List.mem_cons, List.not_mem_nil,
          or_false, List.append_nil, List.nil_append] at hmem
        rcases hmem with ((h | h) | h) | h
        · revert h
          simp [Ne.symm ht2, Ne.symm hw2, Ne.symm hb2, Ne.symm hr.2.1,
            k1, k2, k3, k4, k5]
        · revert h
          simp [Ne.symm hv2, k2, k6]
        · exact hmo2 h
        · revert h
          simp [Ne.symm hr.2.2.2, k7]
      · rw [if_neg hv] at hmem
        simp only [List.mem_append, List.mem_cons, List.not_mem_nil,
          or_false, List.append_nil, List.nil_append] at hmem
        rcases hmem with (h | h) | h
        · revert h
          simp [Ne.symm ht2, Ne.symm hw2, Ne.symm hb2, Ne.symm hr.2.1,
            k1, k2, k3, k4, k5]
        · exact hmo2 h
        · revert h
          simp [Ne.symm hr.2.2.2, k7]
    · intro hf
      rw [writeOps, if_neg hTn, if_pos hf]
      by_cases hv : g.variant ≠ R.standard
      · rw [if_pos hv]
        simp
      · rw [if_neg hv]
        simp

/-- Witness for C8 at a concrete non-standard record with a non-default
position: both tags are emitted; and at a standard default record: neither
tag is emitted. -/
theorem C8_variant_fen_emission_witness :
    ((⟨lc "A", lc "B", .whiteWins, lc "fischer", lc "XYZ", false, true, []⟩ :
        GameSt TRW).hasTags = true ∧
     (lc "[Variant \x22" ∈
        writeOps (⟨lc "A", lc "B", .whiteWins, lc "fischer", lc "XYZ", false,
          true, []⟩ : GameSt TRW) (lc "2026.10.12") ↔
        (⟨lc "A", lc "B", .whiteWins, lc "fischer", lc "XYZ", false, true,
          []⟩ : GameSt TRW).variant ≠ TRW.standard)) ∧
    (lc "[FEN \x22" ∈
        writeOps (⟨lc "A", lc "B", .whiteWins, lc "standard", lc "SF", false,
          true, []⟩ : GameSt TRW) (lc "2026.10.12") ↔
        (TRW.isRandom (lc "standard") = true ∨
          lc "SF" ≠ TRW.startingFen (lc "standard"))) :=
  ⟨⟨rfl,
    (C8_variant_fen_emission TRW
      ⟨lc "A", lc "B", .whiteWins, lc "fischer", lc "XYZ", false, true, []⟩
      (lc "2026.10.12") rfl (by decide) (by decide) (by decide) (by decide)
      (by decide) (by decide) (by decide) (by decide) (by decide)
      (fun p m => by show lc "x" ≠ lc "[Variant \x22"; decide)
      (fun p m => by show lc "x" ≠ lc "[FEN \x22"; decide)).1⟩,
   (C8_variant_fen_emission TRW
      ⟨lc "A", lc "B", .whiteWins, lc "standard", lc "SF", false, true, []⟩
      (lc "2026.10.12") rfl (by decide) (by decide) (by decide) (by decide)
      (by decide) (by decide) (by decide) (by decide) (by decide)
      (fun p m => by show lc "x" ≠ lc "[Variant \x22"; decide)
      (fun p m => by show lc "x" ≠ lc "[FEN \x22"; decide)).2⟩


/-! ## Round-trip machinery: reading back the writer's output -/

theorem catChunks_cons (a : List Char) (l : List (List Char)) :
    catChunks (a :: l) = a ++ catChunks l := rfl

theorem catChunks_append (l1 l2 : List (List Char)) :
    catChunks (l1 ++ l2) = catChunks l1 ++ catChunks l2 := by
  induction l1 with
  | nil => simp [catChunks]
  | cons a t ih =>
    simp only [List.cons_append, catChunks_cons, ih, List.append_assoc]

/-- Leading whitespace is skipped before an item is scanned. -/
theorem readItem_skip (g : GameSt R) (b : Board R) {c : Char}
    (hc : qIsSpace c = true) (s : List Char) :
    readItem g b (c :: s) = readItem g b s := by
  unfold readItem
  rw [show skipWs (c :: s) = skipWs s from by
    simp [skipWs, List.dropWhile_cons, hc]]

theorem mvTok_parts {t : List Char} (h : mvTokOk t = true) :
    t ≠ [] ∧ (∀ c ∈ t, mvCharOk c = true) ∧ t ≠ lc "*" := by
  cases t with
  | nil => cases h
  | cons c cs =>
    simp only [mvTokOk, Bool.and_eq_true, Bool.not_eq_true',
      List.all_eq_true, beq_eq_false_iff_ne] at h
    refine ⟨by simp, ?_, h.2⟩
    intro x hx
    rcases List.mem_cons.mp hx with rfl | hx
    · exact h.1.1.1
    · exact h.1.2 x hx

theorem mvTok_head {c : Char} {cs : List Char}
    (h : mvTokOk (c :: cs) = true) : c.isDigit = false := by
  simp only [mvTokOk, Bool.and_eq_true, Bool.not_eq_true'] at h
  exact h.1.1.2

theorem mvTok_not_term {t : List Char} (h : mvTokOk t = true) :
    ¬(t = lc "*" ∨ t = lc "1/2-1/2" ∨ t = lc "1-0" ∨ t = lc "0-1") := by
  obtain ⟨hne, hall, hstar⟩ := mvTok_parts h
  rintro (rfl | rfl | rfl | rfl)
  · exact hstar rfl
  · exact absurd (mvTok_head h) (by decide)
  · exact absurd (mvTok_head h) (by decide)
  · exact absurd (mvTok_head h) (by decide)

theorem all_digits_ne {t u : List Char} (hd : ∀ c ∈ t, c.isDigit = true)
    {x : Char} (hx : x ∈ u) (hxd : x.isDigit = false) : t ≠ u := by
  intro he
  subst he
  rw [hd x hx] at hxd
  cases hxd

theorem natStr_ne_nil (n : Nat) : natStr n ≠ [] := by
  rw [natStr, natStrAux]
  by_cases h : n < 10
  · rw [if_pos h]
    simp
  · rw [if_neg h]
    simp

theorem natStr_digits (n : Nat) : ∀ c ∈ natStr n, c.isDigit = true :=
  fun c hc => natStrAux_digits _ _ c hc

/-- First character of a move token in pristine state. -/
theorem scan_step_mv_first {hm : Bool} {fuel : Nat} {rest : List Char}
    {c : Char} (hc : mvCharOk c = true) (hd : c.isDigit = false) :
    scanLoop true hm (fuel + 1) PgnMove nullChar nullChar 0 [] (c :: rest) =
      scanLoop true hm fuel PgnMove nullChar nullChar 0 [c] rest := by
  simp only [mvCharOk, Bool.and_eq_true, Bool.not_eq_true',
    decide_eq_true_eq] at hc
  obtain ⟨⟨⟨⟨⟨⟨⟨⟨⟨⟨⟨hsp, c1⟩, c2⟩, c3⟩, c4⟩, c5⟩, c6⟩, c7⟩, c8⟩, c9⟩, c10⟩, c11⟩ := hc
  have hnl : ¬(c = '\n' ∨ c = '\r') := by
    rintro (rfl | rfl) <;> simp [qIsSpace] at hsp
  simp [scanLoop, nullChar, hnl, hsp, hd, c1, c2, c3, c4, c5, c6, c7, c8, c9,
    c10, c11]

/-- First character of a move-number item: a digit in pristine state
reclassifies the item. -/
theorem scan_step_digit_first {hm : Bool} {fuel : Nat} {rest : List Char}
    {c : Char} (hc : c.isDigit = true) :
    scanLoop true hm (fuel + 1) PgnMove nullChar nullChar 0 [] (c :: rest) =
      scanLoop true hm fuel PgnMoveNumber nullChar nullChar 0 [c] rest := by
  have hsp := digit_not_space hc
  have hnl : ¬(c = '\n' ∨ c = '\r') := by
    rintro (rfl | rfl) <;> simp [qIsSpace] at hsp
  have e1 : c ≠ ';' := digit_ne hc (by decide)
  have e2 : c ≠ '%' := digit_ne hc (by decide)
  have e3 : c ≠ '.' := digit_ne hc (by decide)
  have e4 : c ≠ '$' := digit_ne hc (by decide)
  have e5 : c ≠ '[' := digit_ne hc (by decide)
  have e6 : c ≠ '(' := digit_ne hc (by decide)
  have e7 : c ≠ '{' := digit_ne hc (by decide)
  have e8 : c ≠ '\x00' := digit_ne hc (by decide)
  simp [scanLoop, nullChar, hnl, hsp, hc, e1, e2, e3, e4, e5, e6, e7, e8]

/-- A plain character is appended to a move-number item. -/
theorem scan_step_mn_char {hm : Bool} {fuel : Nat} {str rest : List Char}
    {c : Char} (h1 : qIsSpace c = false) (h2 : c ≠ '.') (h3 : c ≠ ';')
    (h4 : c ≠ '%') (h5 : c ≠ '$') (h6 : c ≠ '[') (h7 : c ≠ '(') (h8 : c ≠ '{')
    (h9 : c ≠ '\x00') :
    scanLoop true hm (fuel + 1) PgnMoveNumber nullChar nullChar 0 str
        (c :: rest) =
      scanLoop true hm fuel PgnMoveNumber nullChar nullChar 0 (str ++ [c])
        rest := by
  have hnl : ¬(c = '\n' ∨ c = '\r') := by
    rintro (rfl | rfl) <;> simp [qIsSpace] at h1
  simp [scanLoop, nullChar, hnl, h1, h2, h3, h4, h5, h6, h7, h8, h9]

/-- Reading a bare move token ended by whitespace. -/
theorem readItem_move (g : GameSt R) (b : Board R) {tok : List Char}
    (htg : g.hasTags = true) (htok : mvTokOk tok = true) {e : Char}
    (he : qIsSpace e = true) (rest : List Char) :
    readItem g b (tok ++ e :: rest) = finishItem g b PgnMove tok rest := by
  obtain ⟨hne, hall, -⟩ := mvTok_parts htok
  cases tok with
  | nil => exact absurd rfl hne
  | cons c cs =>
    have hd := mvTok_head htok
    have hc := hall c (by simp)
    unfold readItem
    rw [htg]
    simp only [List.cons_append]
    rw [skipWs_no (mvCharOk_not_space hc)]
    have hf : (c :: (cs ++ e :: rest)).length + 1 =
        (cs.length + (rest.length + 2)) + 1 := by
      simp
      omega
    rw [hf, scan_step_mv_first hc hd,
      scan_run_mv (fun x hx => hall x (by simp [hx])) _ [c] (e :: rest)
        (rest.length + 2) (by simp)]
    simp only [List.singleton_append]
    rw [show rest.length + 2 = (rest.length + 1) + 1 from rfl,
      scan_step_mv_stop he (by simp)]

/-- Post-processing an accepted move token: the record appends the decoded
move and the board advances. -/
theorem finishItem_move_ok (g : GameSt R) (b : Board R) {tok : List Char}
    (htg : g.hasTags = true) (hfen : g.fen ≠ []) {p : R.Pos}
    (hbp : b.pos = some p) {m : R.Mv} (htok : mvTokOk tok = true)
    (hparse : R.moveFromStr p tok = some m) (hleg : R.isLegalMove p m = true)
    (rest : List Char) :
    finishItem g b PgnMove tok rest =
      (PgnMove, { g with moves := g.moves ++ [m] },
        { b with pos := some (R.makeMove p m) }, rest) := by
  obtain ⟨hne, hall, -⟩ := mvTok_parts htok
  have htr : trim tok = tok :=
    trim_no_space (fun x hx => mvCharOk_not_space (hall x hx))
  unfold finishItem
  rw [htr, if_neg hne,
    if_neg (show ¬((PgnMove = PgnMove ∨ PgnMove = PgnMoveNumber) ∧
      (tok = lc "*" ∨ tok = lc "1/2-1/2" ∨ tok = lc "1-0" ∨ tok = lc "0-1"))
      from fun hx => mvTok_not_term htok hx.2),
    if_neg (show ¬(PgnMove = PgnTag) by simp), if_pos rfl,
    if_neg (show ¬¬g.hasTags = true by simp [htg]), if_neg hfen]
  dsimp only
  rw [show Board.moveFromString b tok = some m from by
    unfold Board.moveFromString
    rw [hbp]
    exact hparse]
  dsimp only
  rw [show Board.isLegal b m = true from by
    unfold Board.isLegal
    rw [hbp]
    exact hleg]
  rw [if_pos rfl]
  rw [show Board.apply b m = { b with pos := some (R.makeMove p m) } from by
    unfold Board.apply
    rw [hbp]
    rfl]

/-- Reading a move-number item: digits ended by a period, leaving the state
untouched. -/
theorem readItem_mvnum (g : GameSt R) (b : Board R) {ds : List Char}
    (htg : g.hasTags = true) (hne : ds ≠ [])
    (hds : ∀ c ∈ ds, c.isDigit = true) (rest : List Char) :
    readItem g b (ds ++ '.' :: rest) = (PgnMoveNumber, g, b, rest) := by
  cases ds with
  | nil => exact absurd rfl hne
  | cons d dt =>
    have hd := hds d (by simp)
    unfold readItem
    rw [htg]
    simp only [List.cons_append]
    rw [skipWs_no (digit_not_space hd)]
    have hf : (d :: (dt ++ '.' :: rest)).length + 1 =
        (dt.length + (rest.length + 2)) + 1 := by
      simp
      omega
    rw [hf, scan_step_digit_first hd,
      scan_run_digits (fun x hx => hds x (by simp [hx])) (Or.inr rfl) _ [d]
        ('.' :: rest) (rest.length + 2)]
    simp only [List.singleton_append]
    rw [show rest.length + 2 = (rest.length + 1) + 1 from rfl,
      scan_step_mn_stop (Or.inr rfl) (by simp)]
    dsimp only
    have htr : trim (d :: dt) = d :: dt :=
      trim_no_space (fun x hx => digit_not_space (hds x hx))
    unfold finishItem
    rw [htr]
    dsimp only
    rw [if_neg (show ¬(d :: dt = []) by simp),
      if_neg (show ¬((PgnMoveNumber = PgnMove ∨ PgnMoveNumber = PgnMoveNumber) ∧
        (d :: dt = lc "*" ∨ d :: dt = lc "1/2-1/2" ∨ d :: dt = lc "1-0" ∨
          d :: dt = lc "0-1")) from ?_),
      if_neg (show ¬(PgnMoveNumber = PgnTag) by simp),
      if_neg (show ¬(PgnMoveNumber = PgnMove) by simp),
      if_neg (show ¬(PgnMoveNumber = PgnNag) by simp)]
    rintro ⟨-, (h4 | h4 | h4 | h4)⟩
    · exact all_digits_ne hds (show ('*' : Char) ∈ lc "*" by decide)
        (by decide) h4
    · exact all_digits_ne hds (show ('/' : Char) ∈ lc "1/2-1/2" by decide)
        (by decide) h4
    · exact all_digits_ne hds (show ('-' : Char) ∈ lc "1-0" by decide)
        (by decide) h4
    · exact all_digits_ne hds (show ('-' : Char) ∈ lc "0-1" by decide)
        (by decide) h4

/-- Reading a game terminator followed by a newline: the result is stored and
a Result item ends the game. -/
theorem readItem_term (g : GameSt R) (b : Board R) {r : ChessResult}
    (htg : g.hasTags = true) (hr : r ≠ ChessResult.resultError)
    (rest : List Char) :
    readItem g b (r.toStr ++ '\n' :: rest) =
      (PgnResult, { g with result := r }, b, rest) := by
  obtain ⟨w, bl, res, var, fen, irv, ht, mvs⟩ := g
  simp only at htg
  subst htg
  cases r with
  | resultError => exact absurd rfl hr
  | noResult => rfl
  | whiteWins => rfl
  | blackWins => rfl
  | draw => rfl

/-- One builder step on a continuing item. -/
theorem parseLoop_cont {maxMoves fuel : Nat} {g g1 : GameSt R}
    {b b1 : Board R} {s s1 : List Char} {it : PgnItem}
    (hlt : g.moves.length < maxMoves)
    (hread : readItem g b s = (it, g1, b1, s1)) (h1 : it ≠ PgnError)
    (h2 : it ≠ PgnTag) (h3 : it ≠ PgnResult) (h4 : it ≠ PgnEmpty) :
    parseLoop maxMoves (fuel + 1) g b s = parseLoop maxMoves fuel g1 b1 s1 := by
  rw [parseLoop, if_pos hlt, hread]
  simp [h1, h2, h3, h4]

/-- One builder step on a tag item: the tag flag is raised. -/
theorem parseLoop_tag {maxMoves fuel : Nat} {g g1 : GameSt R}
    {b b1 : Board R} {s s1 : List Char} (hlt : g.moves.length < maxMoves)
    (hread : readItem g b s = (PgnTag, g1, b1, s1)) :
    parseLoop maxMoves (fuel + 1) g b s =
      parseLoop maxMoves fuel { g1 with hasTags := true } b1 s1 := by
  rw [parseLoop, if_pos hlt, hread]
  simp

/-- The builder stops on a Result item. -/
theorem parseLoop_stop {maxMoves fuel : Nat} {g g1 : GameSt R}
    {b b1 : Board R} {s s1 : List Char} (hlt : g.moves.length < maxMoves)
    (hread : readItem g b s = (PgnResult, g1, b1, s1)) :
    parseLoop maxMoves (fuel + 1) g b s = (g1, b1, s1) := by
  rw [parseLoop, if_pos hlt, hread]
  simp

theorem catChunks_nil : catChunks ([] : List (List Char)) = [] := rfl

/-- Parsing the writer's move section: every rendered move is decoded back
and appended, move numbers and line breaks are passed over, and the
terminator ends the game carrying the written result. -/
theorem parse_moves_walk (maxMoves : Nat) {r : ChessResult}
    (hr : r ≠ ChessResult.resultError)
    (hrend : ∀ (p : R.Pos) (m : R.Mv), R.isLegalMove p m = true →
      mvTokOk (R.moveToStr p m) = true)
    (hfaith : ∀ (p : R.Pos) (m : R.Mv), R.isLegalMove p m = true →
      R.moveFromStr p (R.moveToStr p m) = some m) :
    ∀ (ms : List R.Mv) (i : Nat) (g : GameSt R) (bP bW : Board R)
      (p : R.Pos) (fuel : Nat),
      g.hasTags = true → g.fen ≠ [] → bP.pos = some p → bW.pos = some p →
      chainOk R p ms = true → g.moves.length + ms.length < maxMoves →
      2 * ms.length + 1 ≤ fuel →
      (parseLoop maxMoves fuel g bP
          (catChunks (movesOps bW i ms) ++ (r.toStr ++ '\n' :: '\n' :: []))).1 =
        { g with moves := g.moves ++ ms, result := r } := by
  intro ms
  induction ms with
  | nil =>
    intro i g bP bW p fuel htg hfen hbP hbW hchain hmax hfuel
    obtain ⟨f, rfl⟩ : ∃ f, fuel = f + 1 := ⟨fuel - 1, by omega⟩
    rw [show movesOps bW i [] = [] from rfl, catChunks_nil, List.nil_append,
      parseLoop_stop (by omega) (readItem_term g bP htg hr ('\n' :: []))]
    simp
  | cons m tl ih =>
    intro i g bP bW p fuel htg hfen hbP hbW hchain hmax hfuel
    simp only [List.length_cons] at hmax hfuel
    simp only [chainOk, Bool.and_eq_true] at hchain
    obtain ⟨hleg, hchain2⟩ := hchain
    have hre : bW.render m = R.moveToStr p m := by
      unfold Board.render
      rw [hbW]
    have htok := hrend p m hleg
    have hbW2 : (bW.apply m).pos = some (R.makeMove p m) := by
      unfold Board.apply
      rw [hbW]
      rfl
    have hstep : movesOps bW i (m :: tl) =
        (if i % 8 = 0 then [lc "\n"] else []) ++
        (if i % 2 = 0 then [natStr (i / 2 + 1), lc ". "] else []) ++
        [bW.render m, lc " "] ++ movesOps (bW.apply m) (i + 1) tl := rfl
    have hmv2 : readItem g bP (R.moveToStr p m ++ ' ' ::
        (catChunks (movesOps (bW.apply m) (i + 1) tl) ++
          (r.toStr ++ '\n' :: '\n' :: []))) =
        (PgnMove, { g with moves := g.moves ++ [m] },
          { bP with pos := some (R.makeMove p m) },
          catChunks (movesOps (bW.apply m) (i + 1) tl) ++
            (r.toStr ++ '\n' :: '\n' :: [])) := by
      rw [readItem_move g bP htg htok (by decide)]
      exact finishItem_move_ok g bP htg hfen hbP htok (hfaith p m hleg) hleg _
    by_cases h2 : i % 2 = 0
    · obtain ⟨f, rfl⟩ : ∃ f, fuel = f + 1 + 1 := ⟨fuel - 2, by omega⟩
      have hnum : readItem g bP
          (catChunks (movesOps bW i (m :: tl)) ++
            (r.toStr ++ '\n' :: '\n' :: [])) =
          (PgnMoveNumber, g, bP, ' ' :: (R.moveToStr p m ++ ' ' ::
            (catChunks (movesOps (bW.apply m) (i + 1) tl) ++
              (r.toStr ++ '\n' :: '\n' :: [])))) := by
        by_cases h8 : i % 8 = 0
        · rw [show catChunks (movesOps bW i (m :: tl)) ++
              (r.toStr ++ '\n' :: '\n' :: []) =
              '\n' :: (natStr (i / 2 + 1) ++ '.' :: ' ' ::
                (R.moveToStr p m ++ ' ' ::
                  (catChunks (movesOps (bW.apply m) (i + 1) tl) ++
                    (r.toStr ++ '\n' :: '\n' :: [])))) from by
            rw [hstep, if_pos h8, if_pos h2, hre]
            simp [lc, catChunks_append, catChunks_cons, catChunks_nil,
              List.append_assoc]]
          rw [readItem_skip g bP (by decide)]
          exact readItem_mvnum g bP htg (natStr_ne_nil _) (natStr_digits _) _
        · rw [show catChunks (movesOps bW i (m :: tl)) ++
              (r.toStr ++ '\n' :: '\n' :: []) =
              natStr (i / 2 + 1) ++ '.' :: ' ' ::
                (R.moveToStr p m ++ ' ' ::
                  (catChunks (movesOps (bW.apply m) (i + 1) tl) ++
                    (r.toStr ++ '\n' :: '\n' :: []))) from by
            rw [hstep, if_neg h8, if_pos h2, hre]
            simp [lc, catChunks_append, catChunks_cons, catChunks_nil,
              List.append_assoc]]
          exact readItem_mvnum g bP htg (natStr_ne_nil _) (natStr_digits _) _
      rw [parseLoop_cont (by omega) hnum (by decide) (by decide) (by decide)
        (by decide)]
      have hmvstep : readItem g bP (' ' :: (R.moveToStr p m ++ ' ' ::
          (catChunks (movesOps (bW.apply m) (i + 1) tl) ++
            (r.toStr ++ '\n' :: '\n' :: [])))) =
          (PgnMove, { g with moves := g.moves ++ [m] },
            { bP with pos := some (R.makeMove p m) },
            catChunks (movesOps (bW.apply m) (i + 1) tl) ++
              (r.toStr ++ '\n' :: '\n' :: [])) := by
        rw [readItem_skip g bP (by decide)]
        exact hmv2
      rw [parseLoop_cont (by omega) hmvstep (by decide) (by decide) (by decide)
        (by decide)]
      rw [ih (i + 1) { g with moves := g.moves ++ [m] }
        { bP with pos := some (R.makeMove p m) } (bW.apply m)
        (R.makeMove p m) f htg hfen rfl hbW2 hchain2 (by simp; omega)
        (by omega)]
      simp
    · have h8 : ¬i % 8 = 0 := by omega
      obtain ⟨f, rfl⟩ : ∃ f, fuel = f + 1 := ⟨fuel - 1, by omega⟩
      rw [show catChunks (movesOps bW i (m :: tl)) ++
          (r.toStr ++ '\n' :: '\n' :: []) =
          R.moveToStr p m ++ ' ' ::
            (catChunks (movesOps (bW.apply m) (i + 1) tl) ++
              (r.toStr ++ '\n' :: '\n' :: [])) from by
        rw [hstep, if_neg h8, if_neg h2, hre]
        simp [lc, catChunks_append, catChunks_cons, catChunks_nil,
          List.append_assoc]]
      rw [parseLoop_cont (by omega) hmv2 (by decide) (by decide) (by decide)
        (by decide)]
      rw [ih (i + 1) { g with moves := g.moves ++ [m] }
        { bP with pos := some (R.makeMove p m) } (bW.apply m)
        (R.makeMove p m) f htg hfen rfl hbW2 hchain2 (by simp; omega)
        (by omega)]
      simp

/-- The stored result of a completed record survives the tag round trip. -/
theorem ofStr_toSimpleStr {r : ChessResult} (hr : r ≠ ChessResult.resultError) :
    ChessResult.ofStr r.toSimpleStr = r := by
  cases r with
  | resultError => exact absurd rfl hr
  | whiteWins => rfl
  | blackWins => rfl
  | draw => rfl
  | noResult => rfl

/-- Post-processing the first accepted move when no FEN tag was read: the
record takes the board variant's starting position. -/
theorem finishItem_move_fen0 (g : GameSt R) (b : Board R) {tok : List Char}
    (htg : g.hasTags = true) (hfen : g.fen = []) {p : R.Pos}
    (hdec : R.decodeFen (R.startingFen b.var) = some p) {m : R.Mv}
    (htok : mvTokOk tok = true) (hparse : R.moveFromStr p tok = some m)
    (hleg : R.isLegalMove p m = true) (rest : List Char) :
    finishItem g b PgnMove tok rest =
      (PgnMove,
        { g with fen := R.startingFen b.var, moves := g.moves ++ [m] },
        { b with pos := some (R.makeMove p m) }, rest) := by
  obtain ⟨hne, hall, -⟩ := mvTok_parts htok
  have htr : trim tok = tok :=
    trim_no_space (fun x hx => mvCharOk_not_space (hall x hx))
  have hsb : b.setBoard (R.startingFen b.var) =
      (true, { b with pos := some p }) := by
    unfold Board.setBoard
    rw [hdec]
  unfold finishItem
  rw [htr, if_neg hne,
    if_neg (show ¬((PgnMove = PgnMove ∨ PgnMove = PgnMoveNumber) ∧
      (tok = lc "*" ∨ tok = lc "1/2-1/2" ∨ tok = lc "1-0" ∨ tok = lc "0-1"))
      from fun hx => mvTok_not_term htok hx.2),
    if_neg (show ¬(PgnMove = PgnTag) by simp), if_pos rfl,
    if_neg (show ¬¬g.hasTags = true by simp [htg]), if_pos hfen]
  dsimp only
  rw [hsb]
  dsimp only
  rw [show Board.moveFromString { b with pos := some p } tok = some m from by
    unfold Board.moveFromString
    exact hparse]
  dsimp only
  rw [show Board.isLegal { b with pos := some p } m = true from by
    unfold Board.isLegal
    exact hleg]
  rw [if_pos rfl]
  rw [show Board.apply { b with pos := some p } m =
      { b with pos := some (R.makeMove p m) } from by
    unfold Board.apply
    rfl]

/-- Each legally rendered move contributes at least two characters to the
move section. -/
theorem movesOps_len
    (hrend : ∀ (p : R.Pos) (m : R.Mv), R.isLegalMove p m = true →
      mvTokOk (R.moveToStr p m) = true) :
    ∀ (ms : List R.Mv) (i : Nat) (bW : Board R) (p : R.Pos),
      bW.pos = some p → chainOk R p ms = true →
      2 * ms.length ≤ (catChunks (movesOps bW i ms)).length := by
  intro ms
  induction ms with
  | nil =>
    intro i bW p _ _
    simp [movesOps, catChunks_nil]
  | cons m tl ih =>
    intro i bW p hb hch
    simp only [chainOk, Bool.and_eq_true] at hch
    obtain ⟨hleg, hch2⟩ := hch
    have hre : bW.render m = R.moveToStr p m := by
      unfold Board.render
      rw [hb]
    have hb2 : (bW.apply m).pos = some (R.makeMove p m) := by
      unfold Board.apply
      rw [hb]
      rfl
    have hlen1 : 1 ≤ (R.moveToStr p m).length :=
      List.length_pos.mpr (mvTok_parts (hrend p m hleg)).1
    have hrec := ih (i + 1) (bW.apply m) (R.makeMove p m) hb2 hch2
    rw [show movesOps bW i (m :: tl) =
        (if i % 8 = 0 then [lc "\n"] else []) ++
        (if i % 2 = 0 then [natStr (i / 2 + 1), lc ". "] else []) ++
        [bW.render m, lc " "] ++ movesOps (bW.apply m) (i + 1) tl from rfl,
      hre]
    have e1 : (lc "\n").length = 1 := rfl
    have e2 : (lc ". ").length = 2 := rfl
    have e3 : (lc " ").length = 1 := rfl
    by_cases h8 : i % 8 = 0 <;> by_cases h2 : i % 2 = 0 <;>
      simp only [h8, h2, if_true, if_false, reduceIte, List.length_cons,
        catChunks_append, catChunks_cons, catChunks_nil, List.length_append,
        List.nil_append, List.length_nil, e1, e2, e3] <;>
      omega

/-- Reading one complete tag line of the writer's output: the labelled value
is routed to the record field the tag names. -/
theorem readItem_tagline (g : GameSt R) (b : Board R) {name val : List Char}
    (tail : List Char) (hmv : g.moves = []) (hne : name ≠ [])
    (hname : ∀ c ∈ name, qIsSpace c = false ∧ c ≠ '[' ∧ c ≠ ']' ∧ c ≠ '"')
    (hval : ∀ c ∈ val, c ≠ '[' ∧ c ≠ ']' ∧ c ≠ '\n' ∧ c ≠ '\r' ∧ c ≠ '"') :
    readItem g b ('[' :: ((name ++ ' ' :: '"' :: (val ++ ['"'])) ++
        (']' :: '\n' :: tail))) =
      (if name = lc "White" then
         (PgnTag, { g with whitePlayer := val }, b, '\n' :: tail)
       else if name = lc "Black" then
         (PgnTag, { g with blackPlayer := val }, b, '\n' :: tail)
       else if name = lc "Result" then
         (PgnTag, { g with result := ChessResult.ofStr val }, b, '\n' :: tail)
       else if name = lc "Variant" then
         (if R.isNoneVar (R.parseVar val) then
            (PgnError, { g with variant := R.parseVar val }, b, '\n' :: tail)
          else (PgnTag, { g with variant := R.parseVar val },
            b.setVariant (R.parseVar val), '\n' :: tail))
       else if name = lc "FEN" then
         (if (b.setBoard val).1 then
            (PgnTag, { g with fen := val }, (b.setBoard val).2, '\n' :: tail)
          else (PgnError, { g with fen := val }, (b.setBoard val).2,
            '\n' :: tail))
       else (PgnTag, g, b, '\n' :: tail)) := by
  have hns : ∀ c ∈ name, c ≠ ' ' :=
    fun c hc => (space_ne (by decide) (hname c hc).1).symm
  have hcl : ∀ c ∈ name ++ ' ' :: '"' :: (val ++ ['"']),
      c ≠ '[' ∧ c ≠ ']' ∧ c ≠ '\n' ∧ c ≠ '\r' := by
    intro c hc
    simp only [List.mem_append, List.mem_cons] at hc
    rcases hc with hc | hc | hc | hc | hc | hc
    · exact ⟨(hname c hc).2.1, (hname c hc).2.2.1,
        (space_ne (by decide) (hname c hc).1).symm,
        (space_ne (by decide) (hname c hc).1).symm⟩
    · subst hc
      exact ⟨by decide, by decide, by decide, by decide⟩
    · subst hc
      exact ⟨by decide, by decide, by decide, by decide⟩
    · exact ⟨(hval c hc).1, (hval c hc).2.1, (hval c hc).2.2.1,
        (hval c hc).2.2.2.1⟩
    · subst hc
      exact ⟨by decide, by decide, by decide, by decide⟩
    · exact absurd hc (List.not_mem_nil c)
  rw [readItem_tag g b ('\n' :: tail) hmv hcl (Or.inl rfl)]
  cases name with
  | nil => exact absurd rfl hne
  | cons a nt =>
    have hshape : (a :: nt) ++ ' ' :: '"' :: (val ++ ['"']) =
        a :: ((nt ++ ' ' :: '"' :: val) ++ ['"']) := by
      simp
    have htr : trim ((a :: nt) ++ ' ' :: '"' :: (val ++ ['"'])) =
        (a :: nt) ++ ' ' :: '"' :: (val ++ ['"']) := by
      rw [hshape]
      exact trim_ends (hname a (by simp)).1 (by decide)
    have hs0 : section0 ((a :: nt) ++ ' ' :: '"' :: (val ++ ['"'])) =
        a :: nt := by
      unfold section0
      exact tw_append_all (fun c hc => by simp [hns c hc]) (by simp)
    have hs1 : section1 ((a :: nt) ++ ' ' :: '"' :: (val ++ ['"'])) =
        '"' :: (val ++ ['"']) := by
      unfold section1
      rw [dw_append_all (fun c hc => by simp [hns c hc]) (by simp)]
    have hrq : removeQuotes ('"' :: (val ++ ['"'])) = val := by
      unfold removeQuotes
      rw [List.filter_cons, if_neg (by simp), List.filter_append,
        List.filter_eq_self.mpr (fun c hc => by
          simp [(hval c hc).2.2.2.2])]
      simp
    unfold finishItem
    rw [htr]
    rw [if_neg (show ¬((a :: nt) ++ ' ' :: '"' :: (val ++ ['"']) = []) by
      simp)]
    rw [if_neg (show ¬((PgnTag = PgnMove ∨ PgnTag = PgnMoveNumber) ∧
      ((a :: nt) ++ ' ' :: '"' :: (val ++ ['"']) = lc "*" ∨
       (a :: nt) ++ ' ' :: '"' :: (val ++ ['"']) = lc "1/2-1/2" ∨
       (a :: nt) ++ ' ' :: '"' :: (val ++ ['"']) = lc "1-0" ∨
       (a :: nt) ++ ' ' :: '"' :: (val ++ ['"']) = lc "0-1")) by simp)]
    rw [if_pos rfl]
    dsimp only
    rw [hs0, hs1, hrq]

/-- Skipping a whitespace character at the head of the stream does not change
the builder's behaviour while moves remain to be read. -/
theorem parseLoop_skip {maxMoves fuel : Nat} {g : GameSt R} {b : Board R}
    {c : Char} {s : List Char} (hc : qIsSpace c = true)
    (hlt : g.moves.length < maxMoves) :
    parseLoop maxMoves (fuel + 1) g b (c :: s) =
      parseLoop maxMoves (fuel + 1) g b s := by
  rw [parseLoop, if_pos hlt, readItem_skip g b hc]
  conv_rhs => rw [parseLoop, if_pos hlt]

/-- Reading the four fixed tag lines the writer always emits. -/
theorem parse_header (maxMoves : Nat) (g0 : GameSt R) (b : Board R)
    (today w bl rs rest : List Char) (fuel : Nat)
    (hmv : g0.moves = []) (hlt : 0 < maxMoves)
    (ht : ∀ c ∈ today, c ≠ '[' ∧ c ≠ ']' ∧ c ≠ '\n' ∧ c ≠ '\r' ∧ c ≠ '"')
    (hw : ∀ c ∈ w, c ≠ '[' ∧ c ≠ ']' ∧ c ≠ '\n' ∧ c ≠ '\r' ∧ c ≠ '"')
    (hb : ∀ c ∈ bl, c ≠ '[' ∧ c ≠ ']' ∧ c ≠ '\n' ∧ c ≠ '\r' ∧ c ≠ '"')
    (hr : ∀ c ∈ rs, c ≠ '[' ∧ c ≠ ']' ∧ c ≠ '\n' ∧ c ≠ '\r' ∧ c ≠ '"') :
    parseLoop maxMoves ((((fuel + 1) + 1) + 1) + 1) g0 b
      (lc "[Date \x22" ++ (today ++ (lc "\x22]\n" ++
       (lc "[White \x22" ++ (w ++ (lc "\x22]\n" ++
       (lc "[Black \x22" ++ (bl ++ (lc "\x22]\n" ++
       (lc "[Result \x22" ++ (rs ++ (lc "\x22]\n" ++ rest)))))))))))) =
    parseLoop maxMoves fuel
      { g0 with
        whitePlayer := w
        blackPlayer := bl
        result := ChessResult.ofStr rs
        hasTags := true } b ('\n' :: rest) := by
  obtain ⟨q1, q2, q3, q4, q5, q6, q7, q8⟩ := g0
  simp only at hmv
  subst hmv
  have hrd1 : readItem (⟨q1, q2, q3, q4, q5, q6, q7, []⟩ : GameSt R) b
      (lc "[Date \x22" ++ (today ++ (lc "\x22]\n" ++
       (lc "[White \x22" ++ (w ++ (lc "\x22]\n" ++
       (lc "[Black \x22" ++ (bl ++ (lc "\x22]\n" ++
       (lc "[Result \x22" ++ (rs ++ (lc "\x22]\n" ++ rest)))))))))))) =
      (PgnTag, (⟨q1, q2, q3, q4, q5, q6, q7, []⟩ : GameSt R), b, '\n' ::
        (lc "[White \x22" ++ (w ++ (lc "\x22]\n" ++
         (lc "[Black \x22" ++ (bl ++ (lc "\x22]\n" ++
          (lc "[Result \x22" ++ (rs ++ (lc "\x22]\n" ++ rest)))))))))) := by
    rw [show lc "[Date \x22" ++ (today ++ (lc "\x22]\n" ++
        (lc "[White \x22" ++ (w ++ (lc "\x22]\n" ++
         (lc "[Black \x22" ++ (bl ++ (lc "\x22]\n" ++
          (lc "[Result \x22" ++ (rs ++ (lc "\x22]\n" ++ rest))))))))))) =
        '[' :: ((lc "Date" ++ ' ' :: '\x22' :: (today ++ ['\x22'])) ++
          (']' :: '\n' ::
           (lc "[White \x22" ++ (w ++ (lc "\x22]\n" ++
            (lc "[Black \x22" ++ (bl ++ (lc "\x22]\n" ++
             (lc "[Result \x22" ++ (rs ++ (lc "\x22]\n" ++ rest))))))))))) from by
      simp [lc, List.append_assoc]]
    rw [readItem_tagline _ b _ rfl (by decide) (by decide) ht]
    rw [if_neg (by decide), if_neg (by decide), if_neg (by decide),
      if_neg (by decide), if_neg (by decide)]
  rw [parseLoop_tag (by simpa using hlt) hrd1]
  rw [show ({ (⟨q1, q2, q3, q4, q5, q6, q7, []⟩ : GameSt R) with
    hasTags := true } : GameSt R) =
    (⟨q1, q2, q3, q4, q5, q6, true, []⟩ : GameSt R) from rfl]
  have hrd2 : readItem (⟨q1, q2, q3, q4, q5, q6, true, []⟩ : GameSt R) b ('\n' ::
      (lc "[White \x22" ++ (w ++ (lc "\x22]\n" ++
       (lc "[Black \x22" ++ (bl ++ (lc "\x22]\n" ++
        (lc "[Result \x22" ++ (rs ++ (lc "\x22]\n" ++ rest)))))))))) =
      (PgnTag, (⟨w, q2, q3, q4, q5, q6, true, []⟩ : GameSt R), b, '\n' ::
        (lc "[Black \x22" ++ (bl ++ (lc "\x22]\n" ++
         (lc "[Result \x22" ++ (rs ++ (lc "\x22]\n" ++ rest))))))) := by
    rw [readItem_skip _ _ (by decide)]
    rw [show lc "[White \x22" ++ (w ++ (lc "\x22]\n" ++
        (lc "[Black \x22" ++ (bl ++ (lc "\x22]\n" ++
         (lc "[Result \x22" ++ (rs ++ (lc "\x22]\n" ++ rest)))))))) =
        '[' :: ((lc "White" ++ ' ' :: '\x22' :: (w ++ ['\x22'])) ++
          (']' :: '\n' ::
           (lc "[Black \x22" ++ (bl ++ (lc "\x22]\n" ++
            (lc "[Result \x22" ++ (rs ++ (lc "\x22]\n" ++ rest)))))))) from by
      simp [lc, List.append_assoc]]
    rw [readItem_tagline _ b _ rfl (by decide) (by decide) hw]
    rw [if_pos rfl]
  rw [parseLoop_tag (by simpa using hlt) hrd2]
  rw [show ({ (⟨w, q2, q3, q4, q5, q6, true, []⟩ : GameSt R) with
    hasTags := true } : GameSt R) =
    (⟨w, q2, q3, q4, q5, q6, true, []⟩ : GameSt R) from rfl]
  have hrd3 : readItem (⟨w, q2, q3, q4, q5, q6, true, []⟩ : GameSt R) b ('\n' ::
      (lc "[Black \x22" ++ (bl ++ (lc "\x22]\n" ++
       (lc "[Result \x22" ++ (rs ++ (lc "\x22]\n" ++ rest))))))) =
      (PgnTag, (⟨w, bl, q3, q4, q5, q6, true, []⟩ : GameSt R), b, '\n' ::
        (lc "[Result \x22" ++ (rs ++ (lc "\x22]\n" ++ rest)))) := by
    rw [readItem_skip _ _ (by decide)]
    rw [show lc "[Black \x22" ++ (bl ++ (lc "\x22]\n" ++
        (lc "[Result \x22" ++ (rs ++ (lc "\x22]\n" ++ rest))))) =
        '[' :: ((lc "Black" ++ ' ' :: '\x22' :: (bl ++ ['\x22'])) ++
          (']' :: '\n' ::
           (lc "[Result \x22" ++ (rs ++ (lc "\x22]\n" ++ rest))))) from by
      simp [lc, List.append_assoc]]
    rw [readItem_tagline _ b _ rfl (by decide) (by decide) hb]
    rw [if_neg (by decide), if_pos rfl]
  rw [parseLoop_tag (by simpa using hlt) hrd3]
  rw [show ({ (⟨w, bl, q3, q4, q5, q6, true, []⟩ : GameSt R) with
    hasTags := true } : GameSt R) =
    (⟨w, bl, q3, q4, q5, q6, true, []⟩ : GameSt R) from rfl]
  have hrd4 : readItem (⟨w, bl, q3, q4, q5, q6, true, []⟩ : GameSt R) b ('\n' ::
      (lc "[Result \x22" ++ (rs ++ (lc "\x22]\n" ++ rest)))) =
      (PgnTag, (⟨w, bl, ChessResult.ofStr rs, q4, q5, q6, true, []⟩ : GameSt R),
        b, '\n' :: rest) := by
    rw [readItem_skip _ _ (by decide)]
    rw [show lc "[Result \x22" ++ (rs ++ (lc "\x22]\n" ++ rest)) =
        '[' :: ((lc "Result" ++ ' ' :: '\x22' :: (rs ++ ['\x22'])) ++
          (']' :: '\n' :: rest)) from by
      simp [lc, List.append_assoc]]
    rw [readItem_tagline _ b _ rfl (by decide) (by decide) hr]
    rw [if_neg (by decide), if_neg (by decide), if_pos rfl]
  rw [parseLoop_tag (by simpa using hlt) hrd4]

/-- Reading the Variant tag line emitted for a nonstandard variant. -/
theorem parse_variant_line (maxMoves : Nat) (g0 : GameSt R) (b : Board R)
    {v : R.Var} (rest : List Char) (fuel : Nat)
    (hmv : g0.moves = []) (hlt : 0 < maxMoves)
    (hvc : ∀ c ∈ R.varToStr v,
      c ≠ '[' ∧ c ≠ ']' ∧ c ≠ '\n' ∧ c ≠ '\r' ∧ c ≠ '"')
    (hvar : R.parseVar (R.varToStr v) = v) (hvnone : R.isNoneVar v = false) :
    parseLoop maxMoves (fuel + 1) g0 b
      ('\n' :: (lc "[Variant \x22" ++ (R.varToStr v ++ (lc "\x22]\n" ++
        rest)))) =
    parseLoop maxMoves fuel { g0 with variant := v, hasTags := true }
      (b.setVariant v) ('\n' :: rest) := by
  have hlt0 : g0.moves.length < maxMoves := by
    rw [hmv]
    simpa using hlt
  have hrd : readItem g0 b ('\n' :: (lc "[Variant \x22" ++
      (R.varToStr v ++ (lc "\x22]\n" ++ rest)))) =
      (PgnTag, { g0 with variant := v }, b.setVariant v, '\n' :: rest) := by
    rw [readItem_skip _ _ (by decide)]
    rw [show lc "[Variant \x22" ++ (R.varToStr v ++ (lc "\x22]\n" ++ rest)) =
        '[' :: ((lc "Variant" ++ ' ' :: '\x22' :: (R.varToStr v ++ ['\x22'])) ++
          (']' :: '\n' :: rest)) from by
      simp [lc, List.append_assoc]]
    rw [readItem_tagline g0 b rest hmv (by decide) (by decide) hvc]
    rw [if_neg (by decide), if_neg (by decide), if_neg (by decide),
      if_pos rfl, hvar, hvnone]
    rw [if_neg (by decide)]
  rw [parseLoop_tag hlt0 hrd]

/-- Reading the FEN tag line: the starting position is stored and pushed onto
the board. -/
theorem parse_fen_line (maxMoves : Nat) (g0 : GameSt R) (b : Board R)
    {fen : List Char} {p : R.Pos} (rest : List Char) (fuel : Nat)
    (hmv : g0.moves = []) (hlt : 0 < maxMoves)
    (hfc : ∀ c ∈ fen, c ≠ '[' ∧ c ≠ ']' ∧ c ≠ '\n' ∧ c ≠ '\r' ∧ c ≠ '"')
    (hdec : R.decodeFen fen = some p) :
    parseLoop maxMoves (fuel + 1) g0 b
      ('\n' :: (lc "[FEN \x22" ++ (fen ++ (lc "\x22]\n" ++ rest)))) =
    parseLoop maxMoves fuel { g0 with fen := fen, hasTags := true }
      { b with pos := some p } ('\n' :: rest) := by
  have hlt0 : g0.moves.length < maxMoves := by
    rw [hmv]
    simpa using hlt
  have hsb : b.setBoard fen = (true, { b with pos := some p }) := by
    unfold Board.setBoard
    rw [hdec]
  have hrd : readItem g0 b ('\n' :: (lc "[FEN \x22" ++
      (fen ++ (lc "\x22]\n" ++ rest)))) =
      (PgnTag, { g0 with fen := fen }, { b with pos := some p },
        '\n' :: rest) := by
    rw [readItem_skip _ _ (by decide)]
    rw [show lc "[FEN \x22" ++ (fen ++ (lc "\x22]\n" ++ rest)) =
        '[' :: ((lc "FEN" ++ ' ' :: '\x22' :: (fen ++ ['\x22'])) ++
          (']' :: '\n' :: rest)) from by
      simp [lc, List.append_assoc]]
    rw [readItem_tagline g0 b rest hmv (by decide) (by decide) hfc]
    rw [if_neg (by decide), if_neg (by decide), if_neg (by decide),
      if_neg (by decide), if_pos rfl, hsb]
    rw [if_pos rfl]
  rw [parseLoop_tag hlt0 hrd]

/-- Reading the first move of a game whose record holds no FEN yet: the
variant's starting position is taken up before the move is applied. -/
theorem parse_first_move (maxMoves : Nat) {r : ChessResult}
    (hr : r ≠ ChessResult.resultError)
    (hrend : ∀ (p : R.Pos) (m : R.Mv), R.isLegalMove p m = true →
      mvTokOk (R.moveToStr p m) = true)
    (hfaith : ∀ (p : R.Pos) (m : R.Mv), R.isLegalMove p m = true →
      R.moveFromStr p (R.moveToStr p m) = some m)
    (g0 : GameSt R) (b bW : Board R) (m : R.Mv) (tl : List R.Mv)
    (p : R.Pos) (fuel : Nat)
    (htg : g0.hasTags = true) (hfen : g0.fen = []) (hmv0 : g0.moves = [])
    (hdecb : R.decodeFen (R.startingFen b.var) = some p)
    (hstart : R.startingFen b.var ≠ [])
    (hbW : bW.pos = some p)
    (hch : chainOk R p (m :: tl) = true)
    (hmax : tl.length + 1 < maxMoves)
    (hfuel : 2 * tl.length + 1 ≤ fuel) :
    (parseLoop maxMoves (fuel + 1 + 1) g0 b
        ('\n' :: (catChunks (movesOps bW 0 (m :: tl)) ++
          (r.toStr ++ '\n' :: '\n' :: [])))).1 =
      { g0 with
        fen := R.startingFen b.var
        moves := g0.moves ++ m :: tl
        result := r } := by
  have hlt0 : g0.moves.length < maxMoves := by
    rw [hmv0]
    simp
    omega
  simp only [chainOk, Bool.and_eq_true] at hch
  obtain ⟨hleg, hch2⟩ := hch
  have hre : bW.render m = R.moveToStr p m := by
    unfold Board.render
    rw [hbW]
  have htok := hrend p m hleg
  have hbW2 : (bW.apply m).pos = some (R.makeMove p m) := by
    unfold Board.apply
    rw [hbW]
    rfl
  rw [show catChunks (movesOps bW 0 (m :: tl)) ++
      (r.toStr ++ '\n' :: '\n' :: []) =
      '\n' :: (natStr 1 ++ '.' :: ' ' :: (R.moveToStr p m ++ ' ' ::
        (catChunks (movesOps (bW.apply m) 1 tl) ++
          (r.toStr ++ '\n' :: '\n' :: [])))) from by
    rw [show movesOps bW 0 (m :: tl) = [lc "\n"] ++ [natStr 1, lc ". "] ++
      [bW.render m, lc " "] ++ movesOps (bW.apply m) 1 tl from rfl, hre]
    simp [lc, catChunks_append, catChunks_cons, catChunks_nil,
      List.append_assoc]]
  rw [parseLoop_skip (by decide) hlt0, parseLoop_skip (by decide) hlt0]
  rw [parseLoop_cont hlt0 (readItem_mvnum g0 b htg (natStr_ne_nil _)
    (natStr_digits _) _) (by decide) (by decide) (by decide) (by decide)]
  have hmvrd : readItem g0 b (' ' :: (R.moveToStr p m ++ ' ' ::
      (catChunks (movesOps (bW.apply m) 1 tl) ++
        (r.toStr ++ '\n' :: '\n' :: [])))) =
      (PgnMove,
        { g0 with fen := R.startingFen b.var, moves := g0.moves ++ [m] },
        { b with pos := some (R.makeMove p m) },
        catChunks (movesOps (bW.apply m) 1 tl) ++
          (r.toStr ++ '\n' :: '\n' :: [])) := by
    rw [readItem_skip _ _ (by decide)]
    rw [readItem_move g0 b htg htok (by decide)]
    exact finishItem_move_fen0 g0 b htg hfen hdecb htok (hfaith p m hleg)
      hleg _
  rw [parseLoop_cont hlt0 hmvrd (by decide) (by decide) (by decide)
    (by decide)]
  rw [parse_moves_walk maxMoves hr hrend hfaith tl 1
    { g0 with fen := R.startingFen b.var, moves := g0.moves ++ [m] }
    { b with pos := some (R.makeMove p m) } (bW.apply m) (R.makeMove p m)
    fuel htg hstart rfl hbW2 hch2 (by simp [hmv0]; omega) hfuel]
  simp

/-! ## Claim C2: the write/parse round trip -/

/-- Counterexample to C2 as stated: a record whose white player's name
contains a closing bracket does not survive the round trip — the writer
emits the name verbatim and the scanner cuts the tag at the first `]`, so
the reparsed record holds a truncated name. -/
theorem C2_roundtrip_counterexample :
    (pgnParse TR none ⟨lc "standard", none⟩ 100
      (writeOut (⟨lc "x]y", lc "B", .whiteWins, lc "standard", lc "SF", false,
        true, []⟩ : GameSt TR) (lc "2026.10.12"))).1.whitePlayer ≠
    (⟨lc "x]y", lc "B", .whiteWins, lc "standard", lc "SF", false, true,
      []⟩ : GameSt TR).whitePlayer := by
  decide

set_option maxHeartbeats 3000000 in
/-- C2 (corrected): for a completed record with tags whose name, FEN and
variant strings avoid the scanner's delimiter characters, whose result is
not the error value, whose starting position loads and whose moves are a
legal chain faithfully rendered by the engine, writing the record and
parsing the text back yields the same white and black player names, result,
variant, starting position and move sequence; only the Date tag is
rewritten.  The parsed record is the original with the flags the builder
leaves at their defaults (pgngame.cpp lines 240-268 and 270-305). -/
theorem C2_roundtrip_amended (R : Rules) (g : GameSt R) (b0 : Board R)
    (today : List Char) (maxMoves : Nat) (p0 : R.Pos)
    (hT : g.hasTags = true)
    (hres : g.result ≠ ChessResult.resultError)
    (hmax : g.moves.length < maxMoves)
    (htoday : ∀ c ∈ today, c ≠ '[' ∧ c ≠ ']' ∧ c ≠ '\n' ∧ c ≠ '\r' ∧ c ≠ '"')
    (hwc : ∀ c ∈ g.whitePlayer,
      c ≠ '[' ∧ c ≠ ']' ∧ c ≠ '\n' ∧ c ≠ '\r' ∧ c ≠ '"')
    (hbc : ∀ c ∈ g.blackPlayer,
      c ≠ '[' ∧ c ≠ ']' ∧ c ≠ '\n' ∧ c ≠ '\r' ∧ c ≠ '"')
    (hfc : ∀ c ∈ g.fen, c ≠ '[' ∧ c ≠ ']' ∧ c ≠ '\n' ∧ c ≠ '\r' ∧ c ≠ '"')
    (hvc : ∀ c ∈ R.varToStr g.variant,
      c ≠ '[' ∧ c ≠ ']' ∧ c ≠ '\n' ∧ c ≠ '\r' ∧ c ≠ '"')
    (hfen0 : g.fen ≠ [])
    (hdec : R.decodeFen g.fen = some p0)
    (hchain : chainOk R p0 g.moves = true)
    (hvar : R.parseVar (R.varToStr g.variant) = g.variant)
    (hvnone : R.isNoneVar g.variant = false)
    (hneed : g.moves ≠ [] ∨ R.isRandom g.variant = true ∨
      g.fen ≠ R.startingFen g.variant)
    (hrend : ∀ (p : R.Pos) (m : R.Mv), R.isLegalMove p m = true →
      mvTokOk (R.moveToStr p m) = true)
    (hfaith : ∀ (p : R.Pos) (m : R.Mv), R.isLegalMove p m = true →
      R.moveFromStr p (R.moveToStr p m) = some m) :
    (pgnParse R none b0 maxMoves (writeOut g today)).1 =
      { g with isRandomVariant := false, hasTags := true } := by
  obtain ⟨q1, q2, q3, q4, q5, q6, q7, q8⟩ := g
  simp only at hT hres hmax hwc hbc hfc hvc hfen0 hdec hchain hvar hvnone hneed
  subst hT
  have hrs : ∀ c ∈ ChessResult.toSimpleStr q3,
      c ≠ '[' ∧ c ≠ ']' ∧ c ≠ '\n' ∧ c ≠ '\r' ∧ c ≠ '"' := by
    cases q3 <;> decide
  have hofs : ChessResult.ofStr (ChessResult.toSimpleStr q3) = q3 :=
    ofStr_toSimpleStr hres
  have hml := movesOps_len hrend q8 0 (⟨q4, some p0⟩ : Board R) p0 rfl hchain
  have hbW : ((Board.mk q4 none).setBoard q5).2 = (⟨q4, some p0⟩ : Board R) := by
    unfold Board.setBoard
    rw [hdec]
  rw [show pgnParse R none b0 maxMoves
      (writeOut (⟨q1, q2, q3, q4, q5, q6, true, q8⟩ : GameSt R) today) =
      parseLoop maxMoves
        ((writeOut (⟨q1, q2, q3, q4, q5, q6, true, q8⟩ : GameSt R)
          today).length + 1)
        (initGame R) (b0.setVariant R.standard)
        (writeOut (⟨q1, q2, q3, q4, q5, q6, true, q8⟩ : GameSt R) today)
      from rfl]
  rw [show initGame R =
    (⟨[], [], ChessResult.noResult, R.standard, [], false, false, []⟩ :
      GameSt R) from rfl]
  by_cases hSv : q4 = R.standard
  · by_cases hSf : R.isRandom q4 = true ∨ q5 ≠ R.startingFen q4
    · -- standard variant, FEN tag present
          rw [show writeOut (⟨q1, q2, q3, q4, q5, q6, true, q8⟩ : GameSt R)
              today =
              lc "[Date \x22" ++
              (today ++
              (lc "\x22]\n" ++
              (lc "[White \x22" ++
              (q1 ++
              (lc "\x22]\n" ++
              (lc "[Black \x22" ++
              (q2 ++
              (lc "\x22]\n" ++
              (lc "[Result \x22" ++
              (ChessResult.toSimpleStr q3 ++
              (lc "\x22]\n" ++
              (lc "[FEN \x22" ++
              (q5 ++
              (lc "\x22]\n" ++
              (catChunks (movesOps (⟨q4, some p0⟩ : Board R) 0 q8) ++
              (ChessResult.toStr q3 ++ '\n' :: '\n' :: [])))))))))))))))) from by
            unfold writeOut writeOps
            rw [if_neg (by simp)]
            dsimp only
            rw [if_neg (by simp [hSv]), if_pos hSf, hbW]
            simp [lc, catChunks_append, catChunks_cons, catChunks_nil,
              List.append_assoc]]
          have hbig : 2 * q8.length + 12 ≤
              (lc "[Date \x22" ++
              (today ++
              (lc "\x22]\n" ++
              (lc "[White \x22" ++
              (q1 ++
              (lc "\x22]\n" ++
              (lc "[Black \x22" ++
              (q2 ++
              (lc "\x22]\n" ++
              (lc "[Result \x22" ++
              (ChessResult.toSimpleStr q3 ++
              (lc "\x22]\n" ++
              (lc "[FEN \x22" ++
              (q5 ++
              (lc "\x22]\n" ++
              (catChunks (movesOps (⟨q4, some p0⟩ : Board R) 0 q8) ++
              (ChessResult.toStr q3 ++ '\n' :: '\n' :: []))))))))))))))))).length + 1 := by
            simp [lc, List.length_append, List.length_cons]
            omega
          obtain ⟨F, hF1, hF2⟩ : ∃ F,
              (lc "[Date \x22" ++
              (today ++
              (lc "\x22]\n" ++
              (lc "[White \x22" ++
              (q1 ++
              (lc "\x22]\n" ++
              (lc "[Black \x22" ++
              (q2 ++
              (lc "\x22]\n" ++
              (lc "[Result \x22" ++
              (ChessResult.toSimpleStr q3 ++
              (lc "\x22]\n" ++
              (lc "[FEN \x22" ++
              (q5 ++
              (lc "\x22]\n" ++
              (catChunks (movesOps (⟨q4, some p0⟩ : Board R) 0 q8) ++
              (ChessResult.toStr q3 ++ '\n' :: '\n' :: []))))))))))))))))).length + 1 =
              ((((((F + 1) + 1) + 1) + 1) + 1) + 1) ∧
              2 * q8.length + 1 ≤ F + 1 :=
            ⟨(lc "[Date \x22" ++
              (today ++
              (lc "\x22]\n" ++
              (lc "[White \x22" ++
              (q1 ++
              (lc "\x22]\n" ++
              (lc "[Black \x22" ++
              (q2 ++
              (lc "\x22]\n" ++
              (lc "[Result \x22" ++
              (ChessResult.toSimpleStr q3 ++
              (lc "\x22]\n" ++
              (lc "[FEN \x22" ++
              (q5 ++
              (lc "\x22]\n" ++
              (catChunks (movesOps (⟨q4, some p0⟩ : Board R) 0 q8) ++
              (ChessResult.toStr q3 ++ '\n' :: '\n' :: []))))))))))))))))).length + 1 - 6, by omega, by omega⟩
          rw [hF1]
          rw [parse_header maxMoves
            (⟨[], [], ChessResult.noResult, R.standard, [], false, false, []⟩ :
              GameSt R)
            (b0.setVariant R.standard) today q1 q2 (ChessResult.toSimpleStr q3)
            (lc "[FEN \x22" ++
              (q5 ++
              (lc "\x22]\n" ++
              (catChunks (movesOps (⟨q4, some p0⟩ : Board R) 0 q8) ++
              (ChessResult.toStr q3 ++ '\n' :: '\n' :: [])))))
            ((F + 1) + 1) rfl (by omega) htoday hwc hbc hrs]
          rw [show ({ (⟨[], [], ChessResult.noResult, R.standard, [], false, false, []⟩ :
              GameSt R) with
              whitePlayer := q1
              blackPlayer := q2
              result := ChessResult.ofStr (ChessResult.toSimpleStr q3)
              hasTags := true } : GameSt R) =
              (⟨q1, q2, q3, R.standard, [], false, true, []⟩ : GameSt R) from by
            rw [hofs]]
          rw [parse_fen_line maxMoves
            (⟨q1, q2, q3, R.standard, [], false, true, []⟩ : GameSt R)
            (b0.setVariant R.standard)
            (catChunks (movesOps (⟨q4, some p0⟩ : Board R) 0 q8) ++
              (ChessResult.toStr q3 ++ '\n' :: '\n' :: []))
            (F + 1) rfl (by omega) hfc hdec]
          rw [show ({ (⟨q1, q2, q3, R.standard, [], false, true, []⟩ : GameSt R) with fen := q5, hasTags := true } :
              GameSt R) =
              (⟨q1, q2, q3, R.standard, q5, false, true, []⟩ : GameSt R)
              from rfl]
          rw [parseLoop_skip (by decide) (by simp; omega)]
          rw [parse_moves_walk maxMoves hres hrend hfaith q8 0
            (⟨q1, q2, q3, R.standard, q5, false, true, []⟩ : GameSt R)
            { b0.setVariant R.standard with pos := some p0 }
            (⟨q4, some p0⟩ : Board R) p0 (F + 1) rfl hfen0 rfl rfl hchain
            (by simp; omega) (by omega)]
          simp [hSv]
    · -- standard variant, no FEN tag: the record must hold moves
          have hnr : ¬R.isRandom q4 = true ∧ q5 = R.startingFen q4 := by
            rcases not_or.mp hSf with ⟨h1, h2⟩
            exact ⟨h1, not_not.mp h2⟩
          have hq8 : q8 ≠ [] := by
            rcases hneed with h | h | h
            · exact h
            · exact absurd h hnr.1
            · exact absurd hnr.2 h
          obtain ⟨m, tl, rfl⟩ : ∃ m tl, q8 = m :: tl := by
            cases q8 with
            | nil => exact absurd rfl hq8
            | cons m tl => exact ⟨m, tl, rfl⟩
          simp only [List.length_cons] at hml hmax
          rw [show writeOut (⟨q1, q2, q3, q4, q5, q6, true, m :: tl⟩ : GameSt R)
              today =
              lc "[Date \x22" ++
              (today ++
              (lc "\x22]\n" ++
              (lc "[White \x22" ++
              (q1 ++
              (lc "\x22]\n" ++
              (lc "[Black \x22" ++
              (q2 ++
              (lc "\x22]\n" ++
              (lc "[Result \x22" ++
              (ChessResult.toSimpleStr q3 ++
              (lc "\x22]\n" ++
              (catChunks (movesOps (⟨q4, some p0⟩ : Board R) 0 (m :: tl)) ++
              (ChessResult.toStr q3 ++ '\n' :: '\n' :: []))))))))))))) from by
            unfold writeOut writeOps
            rw [if_neg (by simp)]
            dsimp only
            rw [if_neg (by simp [hSv]), if_neg hSf, hbW]
            simp [lc, catChunks_append, catChunks_cons, catChunks_nil,
              List.append_assoc]]
          have hbig : 2 * tl.length + 14 ≤
              (lc "[Date \x22" ++
              (today ++
              (lc "\x22]\n" ++
              (lc "[White \x22" ++
              (q1 ++
              (lc "\x22]\n" ++
              (lc "[Black \x22" ++
              (q2 ++
              (lc "\x22]\n" ++
              (lc "[Result \x22" ++
              (ChessResult.toSimpleStr q3 ++
              (lc "\x22]\n" ++
              (catChunks (movesOps (⟨q4, some p0⟩ : Board R) 0 (m :: tl)) ++
              (ChessResult.toStr q3 ++ '\n' :: '\n' :: [])))))))))))))).length + 1 := by
            simp [lc, List.length_append, List.length_cons]
            omega
          obtain ⟨F, hF1, hF2⟩ : ∃ F,
              (lc "[Date \x22" ++
              (today ++
              (lc "\x22]\n" ++
              (lc "[White \x22" ++
              (q1 ++
              (lc "\x22]\n" ++
              (lc "[Black \x22" ++
              (q2 ++
              (lc "\x22]\n" ++
              (lc "[Result \x22" ++
              (ChessResult.toSimpleStr q3 ++
              (lc "\x22]\n" ++
              (catChunks (movesOps (⟨q4, some p0⟩ : Board R) 0 (m :: tl)) ++
              (ChessResult.toStr q3 ++ '\n' :: '\n' :: [])))))))))))))).length + 1 =
              ((((((F + 1) + 1) + 1) + 1) + 1) + 1) ∧
              2 * tl.length + 1 ≤ F :=
            ⟨(lc "[Date \x22" ++
              (today ++
              (lc "\x22]\n" ++
              (lc "[White \x22" ++
              (q1 ++
              (lc "\x22]\n" ++
              (lc "[Black \x22" ++
              (q2 ++
              (lc "\x22]\n" ++
              (lc "[Result \x22" ++
              (ChessResult.toSimpleStr q3 ++
              (lc "\x22]\n" ++
              (catChunks (movesOps (⟨q4, some p0⟩ : Board R) 0 (m :: tl)) ++
              (ChessResult.toStr q3 ++ '\n' :: '\n' :: [])))))))))))))).length + 1 - 6, by omega, by omega⟩
          rw [hF1]
          rw [parse_header maxMoves
            (⟨[], [], ChessResult.noResult, R.standard, [], false, false, []⟩ :
              GameSt R)
            (b0.setVariant R.standard) today q1 q2 (ChessResult.toSimpleStr q3)
            (catChunks (movesOps (⟨q4, some p0⟩ : Board R) 0 (m :: tl)) ++
              (ChessResult.toStr q3 ++ '\n' :: '\n' :: []))
            ((F + 1) + 1) rfl (by omega) htoday hwc hbc hrs]
          rw [show ({ (⟨[], [], ChessResult.noResult, R.standard, [], false, false, []⟩ :
              GameSt R) with
              whitePlayer := q1
              blackPlayer := q2
              result := ChessResult.ofStr (ChessResult.toSimpleStr q3)
              hasTags := true } : GameSt R) =
              (⟨q1, q2, q3, R.standard, [], false, true, []⟩ : GameSt R) from by
            rw [hofs]]
          have hq5 : R.startingFen ((Board.setVariant b0 R.standard).var) =
              q5 := by
            rw [show (Board.setVariant b0 R.standard).var = R.standard from rfl,
              ← hSv, ← hnr.2]
          rw [parse_first_move maxMoves hres hrend hfaith
            (⟨q1, q2, q3, R.standard, [], false, true, []⟩ : GameSt R)
            (b0.setVariant R.standard) (⟨q4, some p0⟩ : Board R) m tl p0 F
            rfl rfl rfl (by rw [hq5]; exact hdec) (by rw [hq5]; exact hfen0)
            rfl hchain (by simpa using hmax) (by omega)]
          simp [hq5, hSv]
  · by_cases hSf : R.isRandom q4 = true ∨ q5 ≠ R.startingFen q4
    · -- nonstandard variant with its Variant tag, FEN tag present
          rw [show writeOut (⟨q1, q2, q3, q4, q5, q6, true, q8⟩ : GameSt R)
              today =
              lc "[Date \x22" ++
              (today ++
              (lc "\x22]\n" ++
              (lc "[White \x22" ++
              (q1 ++
              (lc "\x22]\n" ++
              (lc "[Black \x22" ++
              (q2 ++
              (lc "\x22]\n" ++
              (lc "[Result \x22" ++
              (ChessResult.toSimpleStr q3 ++
              (lc "\x22]\n" ++
              (lc "[Variant \x22" ++
              (R.varToStr q4 ++
              (lc "\x22]\n" ++
              (lc "[FEN \x22" ++
              (q5 ++
              (lc "\x22]\n" ++
              (catChunks (movesOps (⟨q4, some p0⟩ : Board R) 0 q8) ++
              (ChessResult.toStr q3 ++ '\n' :: '\n' :: []))))))))))))))))))) from by
            unfold writeOut writeOps
            rw [if_neg (by simp)]
            dsimp only
            rw [if_pos hSv, if_pos hSf, hbW]
            simp [lc, catChunks_append, catChunks_cons, catChunks_nil,
              List.append_assoc]]
          have hbig : 2 * q8.length + 12 ≤
              (lc "[Date \x22" ++
              (today ++
              (lc "\x22]\n" ++
              (lc "[White \x22" ++
              (q1 ++
              (lc "\x22]\n" ++
              (lc "[Black \x22" ++
              (q2 ++
              (lc "\x22]\n" ++
              (lc "[Result \x22" ++
              (ChessResult.toSimpleStr q3 ++
              (lc "\x22]\n" ++
              (lc "[Variant \x22" ++
              (R.varToStr q4 ++
              (lc "\x22]\n" ++
              (lc "[FEN \x22" ++
              (q5 ++
              (lc "\x22]\n" ++
              (catChunks (movesOps (⟨q4, some p0⟩ : Board R) 0 q8) ++
              (ChessResult.toStr q3 ++ '\n' :: '\n' :: [])))))))))))))))))))).length + 1 := by
            simp [lc, List.length_append, List.length_cons]
            omega
          obtain ⟨F, hF1, hF2⟩ : ∃ F,
              (lc "[Date \x22" ++
              (today ++
              (lc "\x22]\n" ++
              (lc "[White \x22" ++
              (q1 ++
              (lc "\x22]\n" ++
              (lc "[Black \x22" ++
              (q2 ++
              (lc "\x22]\n" ++
              (lc "[Result \x22" ++
              (ChessResult.toSimpleStr q3 ++
              (lc "\x22]\n" ++
              (lc "[Variant \x22" ++
              (R.varToStr q4 ++
              (lc "\x22]\n" ++
              (lc "[FEN \x22" ++
              (q5 ++
              (lc "\x22]\n" ++
              (catChunks (movesOps (⟨q4, some p0⟩ : Board R) 0 q8) ++
              (ChessResult.toStr q3 ++ '\n' :: '\n' :: [])))))))))))))))))))).length + 1 =
              (((((((F + 1) + 1) + 1) + 1) + 1) + 1) + 1) ∧
              2 * q8.length + 1 ≤ F + 1 :=
            ⟨(lc "[Date \x22" ++
              (today ++
              (lc "\x22]\n" ++
              (lc "[White \x22" ++
              (q1 ++
              (lc "\x22]\n" ++
              (lc "[Black \x22" ++
              (q2 ++
              (lc "\x22]\n" ++
              (lc "[Result \x22" ++
              (ChessResult.toSimpleStr q3 ++
              (lc "\x22]\n" ++
              (lc "[Variant \x22" ++
              (R.varToStr q4 ++
              (lc "\x22]\n" ++
              (lc "[FEN \x22" ++
              (q5 ++
              (lc "\x22]\n" ++
              (catChunks (movesOps (⟨q4, some p0⟩ : Board R) 0 q8) ++
              (ChessResult.toStr q3 ++ '\n' :: '\n' :: [])))))))))))))))))))).length + 1 - 7, by omega, by omega⟩
          rw [hF1]
          rw [parse_header maxMoves
            (⟨[], [], ChessResult.noResult, R.standard, [], false, false, []⟩ :
              GameSt R)
            (b0.setVariant R.standard) today q1 q2 (ChessResult.toSimpleStr q3)
            (lc "[Variant \x22" ++
              (R.varToStr q4 ++
              (lc "\x22]\n" ++
              (lc "[FEN \x22" ++
              (q5 ++
              (lc "\x22]\n" ++
              (catChunks (movesOps (⟨q4, some p0⟩ : Board R) 0 q8) ++
              (ChessResult.toStr q3 ++ '\n' :: '\n' :: []))))))))
            (((F + 1) + 1) + 1) rfl (by omega) htoday hwc hbc hrs]
          rw [show ({ (⟨[], [], ChessResult.noResult, R.standard, [], false, false, []⟩ :
              GameSt R) with
              whitePlayer := q1
              blackPlayer := q2
              result := ChessResult.ofStr (ChessResult.toSimpleStr q3)
              hasTags := true } : GameSt R) =
              (⟨q1, q2, q3, R.standard, [], false, true, []⟩ : GameSt R) from by
            rw [hofs]]
          rw [parse_variant_line maxMoves
            (⟨q1, q2, q3, R.standard, [], false, true, []⟩ : GameSt R)
            (b0.setVariant R.standard)
            (lc "[FEN \x22" ++
              (q5 ++
              (lc "\x22]\n" ++
              (catChunks (movesOps (⟨q4, some p0⟩ : Board R) 0 q8) ++
              (ChessResult.toStr q3 ++ '\n' :: '\n' :: [])))))
            ((F + 1) + 1) rfl (by omega) hvc hvar hvnone]
          rw [show ({ (⟨q1, q2, q3, R.standard, [], false, true, []⟩ : GameSt R) with variant := q4, hasTags := true } :
              GameSt R) =
              (⟨q1, q2, q3, q4, [], false, true, []⟩ : GameSt R) from rfl]
          rw [parse_fen_line maxMoves
            (⟨q1, q2, q3, q4, [], false, true, []⟩ : GameSt R)
            ((b0.setVariant R.standard).setVariant q4)
            (catChunks (movesOps (⟨q4, some p0⟩ : Board R) 0 q8) ++
              (ChessResult.toStr q3 ++ '\n' :: '\n' :: []))
            (F + 1) rfl (by omega) hfc hdec]
          rw [show ({ (⟨q1, q2, q3, q4, [], false, true, []⟩ : GameSt R) with fen := q5, hasTags := true } :
              GameSt R) =
              (⟨q1, q2, q3, q4, q5, false, true, []⟩ : GameSt R) from rfl]
          rw [parseLoop_skip (by decide) (by simp; omega)]
          rw [parse_moves_walk maxMoves hres hrend hfaith q8 0
            (⟨q1, q2, q3, q4, q5, false, true, []⟩ : GameSt R)
            { (b0.setVariant R.standard).setVariant q4 with pos := some p0 }
            (⟨q4, some p0⟩ : Board R) p0 (F + 1) rfl hfen0 rfl rfl hchain
            (by simp; omega) (by omega)]
          simp
    · -- nonstandard variant, no FEN tag
          have hnr : ¬R.isRandom q4 = true ∧ q5 = R.startingFen q4 := by
            rcases not_or.mp hSf with ⟨h1, h2⟩
            exact ⟨h1, not_not.mp h2⟩
          have hq8 : q8 ≠ [] := by
            rcases hneed with h | h | h
            · exact h
            · exact absurd h hnr.1
            · exact absurd hnr.2 h
          obtain ⟨m, tl, rfl⟩ : ∃ m tl, q8 = m :: tl := by
            cases q8 with
            | nil => exact absurd rfl hq8
            | cons m tl => exact ⟨m, tl, rfl⟩
          simp only [List.length_cons] at hml hmax
          rw [show writeOut (⟨q1, q2, q3, q4, q5, q6, true, m :: tl⟩ : GameSt R)
              today =
              lc "[Date \x22" ++
              (today ++
              (lc "\x22]\n" ++
              (lc "[White \x22" ++
              (q1 ++
              (lc "\x22]\n" ++
              (lc "[Black \x22" ++
              (q2 ++
              (lc "\x22]\n" ++
              (lc "[Result \x22" ++
              (ChessResult.toSimpleStr q3 ++
              (lc "\x22]\n" ++
              (lc "[Variant \x22" ++
              (R.varToStr q4 ++
              (lc "\x22]\n" ++
              (catChunks (movesOps (⟨q4, some p0⟩ : Board R) 0 (m :: tl)) ++
              (ChessResult.toStr q3 ++ '\n' :: '\n' :: [])))))))))))))))) from by
            unfold writeOut writeOps
            rw [if_neg (by simp)]
            dsimp only
            rw [if_pos hSv, if_neg hSf, hbW]
            simp [lc, catChunks_append, catChunks_cons, catChunks_nil,
              List.append_assoc]]
          have hbig : 2 * tl.length + 14 ≤
              (lc "[Date \x22" ++
              (today ++
              (lc "\x22]\n" ++
              (lc "[White \x22" ++
              (q1 ++
              (lc "\x22]\n" ++
              (lc "[Black \x22" ++
              (q2 ++
              (lc "\x22]\n" ++
              (lc "[Result \x22" ++
              (ChessResult.toSimpleStr q3 ++
              (lc "\x22]\n" ++
              (lc "[Variant \x22" ++
              (R.varToStr q4 ++
              (lc "\x22]\n" ++
              (catChunks (movesOps (⟨q4, some p0⟩ : Board R) 0 (m :: tl)) ++
              (ChessResult.toStr q3 ++ '\n' :: '\n' :: []))))))))))))))))).length + 1 := by
            simp [lc, List.length_append, List.length_cons]
            omega
          obtain ⟨F, hF1, hF2⟩ : ∃ F,
              (lc "[Date \x22" ++
              (today ++
              (lc "\x22]\n" ++
              (lc "[White \x22" ++
              (q1 ++
              (lc "\x22]\n" ++
              (lc "[Black \x22" ++
              (q2 ++
              (lc "\x22]\n" ++
              (lc "[Result \x22" ++
              (ChessResult.toSimpleStr q3 ++
              (lc "\x22]\n" ++
              (lc "[Variant \x22" ++
              (R.varToStr q4 ++
              (lc "\x22]\n" ++
              (catChunks (movesOps (⟨q4, some p0⟩ : Board R) 0 (m :: tl)) ++
              (ChessResult.toStr q3 ++ '\n' :: '\n' :: []))))))))))))))))).length + 1 =
              (((((((F + 1) + 1) + 1) + 1) + 1) + 1) + 1) ∧
              2 * tl.length + 1 ≤ F :=
            ⟨(lc "[Date \x22" ++
              (today ++
              (lc "\x22]\n" ++
              (lc "[White \x22" ++
              (q1 ++
              (lc "\x22]\n" ++
              (lc "[Black \x22" ++
              (q2 ++
              (lc "\x22]\n" ++
              (lc "[Result \x22" ++
              (ChessResult.toSimpleStr q3 ++
              (lc "\x22]\n" ++
              (lc "[Variant \x22" ++
              (R.varToStr q4 ++
              (lc "\x22]\n" ++
              (catChunks (movesOps (⟨q4, some p0⟩ : Board R) 0 (m :: tl)) ++
              (ChessResult.toStr q3 ++ '\n' :: '\n' :: []))))))))))))))))).length + 1 - 7, by omega, by omega⟩
          rw [hF1]
          rw [parse_header maxMoves
            (⟨[], [], ChessResult.noResult, R.standard, [], false, false, []⟩ :
              GameSt R)
            (b0.setVariant R.standard) today q1 q2 (ChessResult.toSimpleStr q3)
            (lc "[Variant \x22" ++
              (R.varToStr q4 ++
              (lc "\x22]\n" ++
              (catChunks (movesOps (⟨q4, some p0⟩ : Board R) 0 (m :: tl)) ++
              (ChessResult.toStr q3 ++ '\n' :: '\n' :: [])))))
            (((F + 1) + 1) + 1) rfl (by omega) htoday hwc hbc hrs]
          rw [show ({ (⟨[], [], ChessResult.noResult, R.standard, [], false, false, []⟩ :
              GameSt R) with
              whitePlayer := q1
              blackPlayer := q2
              result := ChessResult.ofStr (ChessResult.toSimpleStr q3)
              hasTags := true } : GameSt R) =
              (⟨q1, q2, q3, R.standard, [], false, true, []⟩ : GameSt R) from by
            rw [hofs]]
          rw [parse_variant_line maxMoves
            (⟨q1, q2, q3, R.standard, [], false, true, []⟩ : GameSt R)
            (b0.setVariant R.standard)
            (catChunks (movesOps (⟨q4, some p0⟩ : Board R) 0 (m :: tl)) ++
              (ChessResult.toStr q3 ++ '\n' :: '\n' :: []))
            ((F + 1) + 1) rfl (by omega) hvc hvar hvnone]
          rw [show ({ (⟨q1, q2, q3, R.standard, [], false, true, []⟩ : GameSt R) with variant := q4, hasTags := true } :
              GameSt R) =
              (⟨q1, q2, q3, q4, [], false, true, []⟩ : GameSt R) from rfl]
          have hq5 : R.startingFen
              ((((b0.setVariant R.standard).setVariant q4)).var) = q5 := by
            rw [show ((((b0.setVariant R.standard).setVariant q4)).var) = q4
              from rfl, ← hnr.2]
          rw [parse_first_move maxMoves hres hrend hfaith
            (⟨q1, q2, q3, q4, [], false, true, []⟩ : GameSt R)
            ((b0.setVariant R.standard).setVariant q4) (⟨q4, some p0⟩ : Board R)
            m tl p0 F rfl rfl rfl (by rw [hq5]; exact hdec)
            (by rw [hq5]; exact hfen0) rfl hchain (by simpa using hmax)
            (by omega)]
          simp [hq5]

/-- Witness for the corrected C2 at a concrete record over the faithful test
engine: one legal move, standard variant, a starting position differing from
the default, all hypotheses discharged by computation. -/
theorem C2_roundtrip_amended_witness :
    (⟨lc "A", lc "B", ChessResult.whiteWins, lc "standard", lc "SF", false,
        true, [lc "e4"]⟩ : GameSt TR2).hasTags = true ∧
    chainOk TR2 (lc "SF") [lc "e4"] = true ∧
    (pgnParse TR2 none ⟨lc "standard", none⟩ 10
        (writeOut (⟨lc "A", lc "B", ChessResult.whiteWins, lc "standard",
          lc "SF", false, true, [lc "e4"]⟩ : GameSt TR2)
          (lc "2026.10.12"))).1 =
      { (⟨lc "A", lc "B", ChessResult.whiteWins, lc "standard", lc "SF",
          false, true, [lc "e4"]⟩ : GameSt TR2) with
        isRandomVariant := false, hasTags := true } :=
  ⟨rfl, by decide,
    C2_roundtrip_amended TR2 _ _ _ _ (lc "SF") rfl (by decide) (by decide)
      (by decide) (by decide) (by decide) (by decide) (by decide) (by decide)
      rfl (by decide) rfl (by decide) (Or.inl (by decide))
      (fun p m h => h) (fun p m h => rfl)⟩
end PgnC
